import Mathlib

/-!
Shallow embedding of the `lextok` tokenizer-combinator library
(`src/lib/lextok.h` over the view type of `src/lib/ct_lib.h`).

The input cursor `CT::string_view` is modelled as a buffer (list of
characters) together with a start offset and a length; `remove_prefix`
is `SV.drop`, the slicing constructor `string_view(sv, count)` is
`SV.take`.  A tokenizer is a syntax tree (`Tok`) over the library's
atomic matchers and combinators, and `run` is a fuel-indexed
interpreter returning `none` when the fuel is exhausted, and otherwise
the match result (`Option SV`), the final cursor, and the ordered list
of observer invocations (observer id paired with the span it received).
-/

/-- Model of `CT::string_view`: a non-owning view into `buf`
starting at `off` and spanning `len` characters. -/
structure SV where
  buf : List Char
  off : Nat
  len : Nat
deriving DecidableEq, Repr

namespace SV

/-- Character read `str[i]`, i.e. `buf[off+i]`; out-of-range reads give
a fixed default (the code never performs them on valid views). -/
def charAt (s : SV) (i : Nat) : Char := s.buf.getD (s.off + i) (Char.ofNat 0)

/-- Model of `remove_prefix(n)`: `sz = n > sz ? 0 : sz - n; str += n`. -/
def drop (s : SV) (n : Nat) : SV :=
  ⟨s.buf, s.off + n, if n > s.len then 0 else s.len - n⟩

/-- Model of the slicing constructor `string_view(sv, count)`:
same data pointer, size `min count sv.size`. -/
def take (s : SV) (n : Nat) : SV := ⟨s.buf, s.off, min n s.len⟩

/-- Model of `string_view(cstr)` for a literal: a view over the
literal's own storage. -/
def ofList (l : List Char) : SV := ⟨l, 0, l.length⟩

/-- Model of `starts_with(char)`: false on empty, else compare `str[0]`. -/
def startsWithChar (s : SV) (c : Char) : Bool :=
  if s.len = 0 then false else s.charAt 0 == c

/-- Model of `starts_with(const string_view&)` for a literal prefix:
size check then characterwise comparison. -/
def startsWithL (s : SV) (p : List Char) : Bool :=
  decide (p.length ≤ s.len) &&
    (List.range p.length).all (fun i => p.getD i (Char.ofNat 0) == s.charAt i)

/-- The characters visible through the view. -/
def toList (s : SV) : List Char := (s.buf.drop s.off).take s.len

/-- A view is good when it is empty or stays inside its buffer; every
view the library builds from a good cursor again satisfies this. -/
def Good (s : SV) : Prop := s.len = 0 ∨ s.off + s.len ≤ s.buf.length

instance (s : SV) : Decidable s.Good := by unfold Good; infer_instance

end SV

/-- One observer invocation: the observer's identifier and the span
passed to it.  Observer callables are modelled by identifiers; the
default no-op `mapper::none` is just an id the claims never mention. -/
abbrev Event := Nat × SV

/-- Result of a tokenizer application: the optional matched span
(`Tok::Token`), the final cursor, and the observer invocations in
order. -/
abbrev RunRes := Option SV × SV × List Event

/-- Syntax of tokenizers built from the library's atomic matchers and
combinators (`Tok::` namespace of `src/lib/lextok.h`). -/
inductive Tok where
  /-- Model of `impl::single_char_tokenizer(pred, func)`; also the shape of
  `alphabet`, `digit`, `char_token`, `any`, ... -/
  | singleChar (p : Char → Bool) (o : Nat)
  /-- Model of `str_token(str, func)`. -/
  | strTok (str : List Char) (o : Nat)
  /-- Model of `any_of(char_group, func)`. -/
  | anyOf (g : List Char) (o : Nat)
  /-- Model of `none_of(char_group, func)`. -/
  | noneOf (g : List Char) (o : Nat)
  /-- Model of `many(tokenizer, func)`. -/
  | many (t : Tok) (o : Nat)
  /-- Model of `at_least_one(tokenizer, func)`. -/
  | atLeastOne (t : Tok) (o : Nat)
  /-- Model of `exactly(tokenizer, n, func)`. -/
  | exactly (t : Tok) (n : Nat) (o : Nat)
  /-- Model of `maybe(tokenizer, func)`. -/
  | maybe (t : Tok) (o : Nat)
  /-- Model of `sequence(tokenizers...)`. -/
  | seq (ts : List Tok)
  /-- Model of the alternation `operator|(tl, tr)`. -/
  | alt (l r : Tok)
  /-- Model of `map_seq(seq, func)`. -/
  | mapSeq (t : Tok) (o : Nat)

/-- Model of `char_token(c, func)`: `single_char_tokenizer` with the
predicate `c == ch`. -/
def char_token (c : Char) (o : Nat) : Tok := Tok.singleChar (fun ch => c == ch) o

/-- Sum of the sizes of the tokens of `impl::apply_tokenizers`; `none`
when some tokenizer failed (the loop stops at the first failure, but
later sizes are ignored either way). -/
def sumSizes : List (Option SV) → Option Nat
  | [] => some 0
  | none :: _ => none
  | some sp :: rest =>
    match sumSizes rest with
    | none => none
    | some n => some (sp.len + n)

mutual

/-- Fuel-indexed interpreter for a tokenizer applied to a cursor;
`none` means the fuel ran out (the C++ would still be looping). -/
def run : Nat → Tok → SV → Option RunRes
  | 0, _, _ => none
  | fuel+1, t, sv =>
    match t with
    | .singleChar p o =>
      if sv.len = 0 then some (none, sv, [])
      else if p (sv.charAt 0) then
        some (some (sv.take 1), sv.drop 1, [(o, sv.take 1)])
      else some (none, sv, [])
    | .strTok str o =>
      if sv.startsWithL str then
        some (some (SV.ofList str), sv.drop str.length, [(o, SV.ofList str)])
      else some (none, sv, [])
    | .anyOf g o =>
      if g.any (fun c => sv.startsWithChar c) then
        some (some (sv.take 1), sv.drop 1, [(o, sv.take 1)])
      else some (none, sv, [])
    | .noneOf g o =>
      if g.any (fun c => sv.startsWithChar c) then some (none, sv, [])
      else some (some (sv.take 1), sv.drop 1, [(o, sv.take 1)])
    | .many t o =>
      match accum fuel t sv with
      | none => none
      | some (sz, evs) =>
        some (some (sv.take sz), sv.drop sz, evs ++ [(o, sv.take sz)])
    | .atLeastOne t o =>
      match run fuel t sv with
      | none => none
      | some (none, _, evs) => some (none, sv, evs)
      | some (some sp1, sv1, evs1) =>
        match accum fuel t sv1 with
        | none => none
        | some (tsz, evs2) =>
          some (some (sv.take (tsz + sp1.len)), sv1.drop tsz,
                evs1 ++ evs2 ++ [(o, sv.take (tsz + sp1.len))])
    | .exactly t n o =>
      match exactlyLoop fuel t n sv with
      | none => none
      | some (none, _, evs) => some (none, sv, evs)
      | some (some tsz, sv1, evs) =>
        some (some (sv.take tsz), sv1, evs ++ [(o, sv.take tsz)])
    | .maybe t o =>
      match run fuel t sv with
      | none => none
      | some (none, sv1, evs) =>
        some (some (SV.ofList []), sv1, evs ++ [(o, SV.ofList [])])
      | some (some sp, sv1, evs) => some (some sp, sv1, evs ++ [(o, sp)])
    | .seq ts =>
      match runList fuel ts sv with
      | none => none
      | some (tks, sv1, evs) =>
        match sumSizes tks with
        | none => some (none, sv, evs)
        | some tsz => some (some (sv.take tsz), sv1, evs)
    | .alt l r =>
      match run fuel l sv with
      | none => none
      | some (some sp, sv1, evs1) => some (some sp, sv1, evs1)
      | some (none, sv1, evs1) =>
        match run fuel r sv1 with
        | none => none
        | some (tk2, sv2, evs2) => some (tk2, sv2, evs1 ++ evs2)
    | .mapSeq t o =>
      match run fuel t sv with
      | none => none
      | some (none, _, evs) => some (none, sv, evs)
      | some (some sp, sv1, evs) => some (some sp, sv1, evs ++ [(o, sp)])

/-- Model of `impl::accumulation_size`: repeatedly apply the tokenizer
to a local copy of the input while it is nonempty, summing the token
sizes and stopping at the first failure; the observer side effects of
every attempt (the failing one included) are kept. -/
def accum : Nat → Tok → SV → Option (Nat × List Event)
  | 0, _, sv => if sv.len = 0 then some (0, []) else none
  | fuel+1, t, sv =>
    if sv.len = 0 then some (0, [])
    else
      match run fuel t sv with
      | none => none
      | some (none, _, evs) => some (0, evs)
      | some (some sp, sv1, evs) =>
        match accum fuel t sv1 with
        | none => none
        | some (sz, evs2) => some (sp.len + sz, evs ++ evs2)

/-- The `for (i = 0; i < n; i++)` loop of `exactly`: apply the
tokenizer `n` times against the live cursor, summing token sizes;
the first failure aborts the loop. -/
def exactlyLoop : Nat → Tok → Nat → SV → Option (Option Nat × SV × List Event)
  | _, _, 0, sv => some (some 0, sv, [])
  | 0, _, _+1, _ => none
  | fuel+1, t, n+1, sv =>
    match run fuel t sv with
    | none => none
    | some (none, sv1, evs) => some (none, sv1, evs)
    | some (some sp, sv1, evs) =>
      match exactlyLoop fuel t n sv1 with
      | none => none
      | some (res, sv2, evs2) =>
        some (res.map (fun m => sp.len + m), sv2, evs ++ evs2)

/-- The braced-array initialization of `impl::apply_tokenizers`: every
tokenizer of the pack is invoked, in order, against the live cursor,
collecting each result. -/
def runList : Nat → List Tok → SV → Option (List (Option SV) × SV × List Event)
  | _, [], sv => some ([], sv, [])
  | 0, _ :: _, _ => none
  | fuel+1, t :: rest, sv =>
    match run fuel t sv with
    | none => none
    | some (tk, sv1, evs1) =>
      match runList fuel rest sv1 with
      | none => none
      | some (tks, sv2, evs2) => some (tk :: tks, sv2, evs1 ++ evs2)

end

/-- A tokenizer surely consumes at least one unit whenever it succeeds
on a nonempty cursor: true for every atomic matcher, for nonempty
literals, and preserved by the combinators as below.  `many`, `maybe`
and `exactly _ 0` can succeed with an empty span so they are excluded,
and a sequence is included through its first element. -/
def progOK : Tok → Bool
  | .singleChar _ _ => true
  | .strTok s _ => decide (s ≠ [])
  | .anyOf _ _ => true
  | .noneOf _ _ => true
  | .many _ _ => false
  | .atLeastOne t _ => progOK t
  | .exactly t n _ => progOK t && decide (0 < n)
  | .maybe _ _ => false
  | .seq [] => false
  | .seq (t :: _) => progOK t
  | .alt l r => progOK l && progOK r
  | .mapSeq t _ => progOK t

mutual

/-- Every `many`/`at_least_one` body in the tokenizer is surely
consuming in the sense of `progOK`. -/
def repOk : Tok → Bool
  | .singleChar _ _ => true
  | .strTok _ _ => true
  | .anyOf _ _ => true
  | .noneOf _ _ => true
  | .many t _ => progOK t && repOk t
  | .atLeastOne t _ => progOK t && repOk t
  | .exactly t _ _ => repOk t
  | .maybe t _ => repOk t
  | .seq ts => repOkList ts
  | .alt l r => repOk l && repOk r
  | .mapSeq t _ => repOk t

/-- Check of `repOk` for every element of a list of tokenizers. -/
def repOkList : List Tok → Bool
  | [] => true
  | t :: ts => repOk t && repOkList ts

end

mutual

/-- The observer id `o` is not attached anywhere inside the tokenizer. -/
def obsFresh (o : Nat) : Tok → Bool
  | .singleChar _ i => !(o == i)
  | .strTok _ i => !(o == i)
  | .anyOf _ i => !(o == i)
  | .noneOf _ i => !(o == i)
  | .many t i => !(o == i) && obsFresh o t
  | .atLeastOne t i => !(o == i) && obsFresh o t
  | .exactly t _ i => !(o == i) && obsFresh o t
  | .maybe t i => !(o == i) && obsFresh o t
  | .seq ts => obsFreshList o ts
  | .alt l r => obsFresh o l && obsFresh o r
  | .mapSeq t i => !(o == i) && obsFresh o t

/-- Check of `obsFresh` for every element of a list of tokenizers. -/
def obsFreshList (o : Nat) : List Tok → Bool
  | [] => true
  | t :: ts => obsFresh o t && obsFreshList o ts

end

/-- A match attempt terminates: some amount of fuel makes the
interpreter return (which is exactly when the C++ loop structure
finishes). -/
def Terminates (t : Tok) (sv : SV) : Prop := ∃ fuel r, run fuel t sv = some r

/-- Number of observer invocations with id `o` in an event list. -/
def countObs (o : Nat) (evs : List Event) : Nat :=
  (evs.filter (fun e => e.1 == o)).length

/-- The cursor/span contract of one application: on failure the cursor
is exactly the pre-call cursor; on success the span length plus the
remaining length is the pre-call length and, for a good cursor, the
span content is the matched-length prefix of the pre-call content, the
final cursor holds exactly the rest, and stays good. -/
def RunOK (sv : SV) (r : RunRes) : Prop :=
  (r.1 = none → r.2.1 = sv)
  ∧ (∀ sp, r.1 = some sp → sp.len + r.2.1.len = sv.len)
  ∧ (∀ sp, r.1 = some sp → sv.Good →
      sp.toList = sv.toList.take sp.len
      ∧ r.2.1.toList = sv.toList.drop sp.len
      ∧ r.2.1.Good)

namespace SV

theorem len_drop (s : SV) (n : Nat) : (s.drop n).len = s.len - n := by
  show (if n > s.len then 0 else s.len - n) = s.len - n
  split <;> omega

theorem len_take (s : SV) (n : Nat) : (s.take n).len = min n s.len := rfl

theorem toList_take (s : SV) (n : Nat) : (s.take n).toList = s.toList.take n := by
  show (s.buf.drop s.off).take (min n s.len) = ((s.buf.drop s.off).take s.len).take n
  rw [List.take_take]

theorem toList_drop (s : SV) (n : Nat) : (s.drop n).toList = s.toList.drop n := by
  show (s.buf.drop (s.off + n)).take (if n > s.len then 0 else s.len - n)
      = ((s.buf.drop s.off).take s.len).drop n
  rw [List.drop_take, List.drop_drop]
  split
  · next h =>
    have h0 : s.len - n = 0 := by omega
    rw [h0]
  · rfl

theorem toList_ofList (l : List Char) : (SV.ofList l).toList = l := by
  show (l.drop 0).take l.length = l
  simp

theorem len_ofList (l : List Char) : (SV.ofList l).len = l.length := rfl

theorem good_drop (s : SV) (n : Nat) (h : s.Good) : (s.drop n).Good := by
  show (if n > s.len then 0 else s.len - n) = 0 ∨
    (s.off + n) + (if n > s.len then 0 else s.len - n) ≤ s.buf.length
  rcases h with h | h
  · left; split <;> omega
  · by_cases hn : n > s.len
    · left; rw [if_pos hn]
    · right; rw [if_neg hn]; omega

theorem good_take (s : SV) (n : Nat) (h : s.Good) : (s.take n).Good := by
  show min n s.len = 0 ∨ s.off + min n s.len ≤ s.buf.length
  rcases h with h | h
  · left; omega
  · right
    have := Nat.min_le_right n s.len
    omega

theorem good_ofList (l : List Char) : (SV.ofList l).Good := by
  right
  show 0 + l.length ≤ l.length
  omega

theorem toList_length (s : SV) (h : s.Good) : s.toList.length = s.len := by
  show ((s.buf.drop s.off).take s.len).length = s.len
  rw [List.length_take, List.length_drop]
  rcases h with h | h <;> omega

theorem good_valid (s : SV) (hg : s.Good) (hne : s.len ≠ 0) :
    s.off + s.len ≤ s.buf.length := by
  rcases hg with h | h
  · omega
  · exact h

/-- On a good nonempty view, the visible characters are the head
`charAt 0` followed by the content of the view advanced by one. -/
theorem toList_cons (s : SV) (hg : s.Good) (hne : s.len ≠ 0) :
    s.toList = s.charAt 0 :: (s.drop 1).toList := by
  have hv := good_valid s hg hne
  have hofflt : s.off < s.buf.length := by omega
  have hc : s.charAt 0 = s.buf[s.off] := by
    show s.buf.getD (s.off + 0) (Char.ofNat 0) = s.buf[s.off]
    rw [Nat.add_zero]
    exact List.getD_eq_getElem s.buf _ hofflt
  have hd : s.buf.drop s.off = s.buf[s.off] :: s.buf.drop (s.off + 1) :=
    List.drop_eq_getElem_cons hofflt
  rcases Nat.exists_eq_succ_of_ne_zero hne with ⟨k, hk⟩
  rw [toList_drop, hc]
  show (s.buf.drop s.off).take s.len
    = s.buf[s.off] :: ((s.buf.drop s.off).take s.len).drop 1
  rw [hd, hk, List.take_succ_cons]
  simp

theorem startsWithL_le (s : SV) (p : List Char) (h : s.startsWithL p = true) :
    p.length ≤ s.len := by
  unfold startsWithL at h
  simp only [Bool.and_eq_true, decide_eq_true_eq] at h
  exact h.1

theorem startsWithChar_ne (s : SV) (c : Char) (h : s.startsWithChar c = true) :
    s.len ≠ 0 := by
  unfold startsWithChar at h
  intro h0
  simp [h0] at h

/-- A literal accepted by `starts_with` is exactly the leading content
of a good view. -/
theorem startsWithL_toList (s : SV) (p : List Char) (hg : s.Good)
    (h : s.startsWithL p = true) : p = s.toList.take p.length := by
  have hle := startsWithL_le s p h
  unfold startsWithL at h
  simp only [Bool.and_eq_true, decide_eq_true_eq, List.all_eq_true, List.mem_range] at h
  obtain ⟨-, hall⟩ := h
  have hlen : s.toList.length = s.len := toList_length s hg
  apply List.ext_getElem
  · simp only [List.length_take]
    omega
  · intro i hi1 hi2
    have hip : i < p.length := hi1
    have hne : s.len ≠ 0 := by omega
    have hv := good_valid s hg hne
    have hoffi : s.off + i < s.buf.length := by omega
    have := hall i hip
    simp only [beq_iff_eq] at this
    have hchar : s.charAt i = s.buf[s.off + i] := by
      show s.buf.getD (s.off + i) (Char.ofNat 0) = s.buf[s.off + i]
      exact List.getD_eq_getElem s.buf _ hoffi
    have hgd : p.getD i (Char.ofNat 0) = p[i] := List.getD_eq_getElem p _ hip
    rw [hgd, hchar] at this
    rw [List.getElem_take]
    simp only [toList]
    rw [List.getElem_take, List.getElem_drop]
    exact this

theorem toList_len_le (s : SV) : s.toList.length ≤ s.len := by
  show ((s.buf.drop s.off).take s.len).length ≤ s.len
  rw [List.length_take]
  omega

theorem take_toList_min (s : SV) (k : Nat) :
    (s.take k).toList = s.toList.take (min k s.len) := by
  rw [toList_take]
  rcases le_or_lt k s.len with h | h
  · rw [Nat.min_eq_left h]
  · rw [Nat.min_eq_right (le_of_lt h)]
    have h1 := toList_len_le s
    rw [List.take_of_length_le (by omega), List.take_of_length_le (by omega)]

theorem drop_toList_min (s : SV) (k : Nat) :
    (s.drop k).toList = s.toList.drop (min k s.len) := by
  rw [toList_drop]
  rcases le_or_lt k s.len with h | h
  · rw [Nat.min_eq_left h]
  · rw [Nat.min_eq_right (le_of_lt h)]
    have h1 := toList_len_le s
    rw [List.drop_eq_nil_of_le (by omega), List.drop_eq_nil_of_le (by omega)]

end SV

theorem run_singleChar_eq (fuel : Nat) (p : Char → Bool) (o : Nat) (sv : SV) :
    run (fuel+1) (.singleChar p o) sv =
      (if sv.len = 0 then some (none, sv, [])
       else if p (sv.charAt 0) then
         some (some (sv.take 1), sv.drop 1, [(o, sv.take 1)])
       else some (none, sv, [])) := rfl

theorem run_strTok_eq (fuel : Nat) (str : List Char) (o : Nat) (sv : SV) :
    run (fuel+1) (.strTok str o) sv =
      (if sv.startsWithL str then
         some (some (SV.ofList str), sv.drop str.length, [(o, SV.ofList str)])
       else some (none, sv, [])) := rfl

theorem run_anyOf_eq (fuel : Nat) (g : List Char) (o : Nat) (sv : SV) :
    run (fuel+1) (.anyOf g o) sv =
      (if g.any (fun c => sv.startsWithChar c) then
         some (some (sv.take 1), sv.drop 1, [(o, sv.take 1)])
       else some (none, sv, [])) := rfl

theorem run_noneOf_eq (fuel : Nat) (g : List Char) (o : Nat) (sv : SV) :
    run (fuel+1) (.noneOf g o) sv =
      (if g.any (fun c => sv.startsWithChar c) then some (none, sv, [])
       else some (some (sv.take 1), sv.drop 1, [(o, sv.take 1)])) := rfl

theorem run_many_eq (fuel : Nat) (t : Tok) (o : Nat) (sv : SV) :
    run (fuel+1) (.many t o) sv =
      (match accum fuel t sv with
       | none => none
       | some (sz, evs) =>
         some (some (sv.take sz), sv.drop sz, evs ++ [(o, sv.take sz)])) := rfl

theorem run_atLeastOne_eq (fuel : Nat) (t : Tok) (o : Nat) (sv : SV) :
    run (fuel+1) (.atLeastOne t o) sv =
      (match run fuel t sv with
       | none => none
       | some (none, _, evs) => some (none, sv, evs)
       | some (some sp1, sv1, evs1) =>
         match accum fuel t sv1 with
         | none => none
         | some (tsz, evs2) =>
           some (some (sv.take (tsz + sp1.len)), sv1.drop tsz,
                 evs1 ++ evs2 ++ [(o, sv.take (tsz + sp1.len))])) := rfl

theorem run_exactly_eq (fuel : Nat) (t : Tok) (n : Nat) (o : Nat) (sv : SV) :
    run (fuel+1) (.exactly t n o) sv =
      (match exactlyLoop fuel t n sv with
       | none => none
       | some (none, _, evs) => some (none, sv, evs)
       | some (some tsz, sv1, evs) =>
         some (some (sv.take tsz), sv1, evs ++ [(o, sv.take tsz)])) := rfl

theorem run_maybe_eq (fuel : Nat) (t : Tok) (o : Nat) (sv : SV) :
    run (fuel+1) (.maybe t o) sv =
      (match run fuel t sv with
       | none => none
       | some (none, sv1, evs) =>
         some (some (SV.ofList []), sv1, evs ++ [(o, SV.ofList [])])
       | some (some sp, sv1, evs) => some (some sp, sv1, evs ++ [(o, sp)])) := rfl

theorem run_seq_eq (fuel : Nat) (ts : List Tok) (sv : SV) :
    run (fuel+1) (.seq ts) sv =
      (match runList fuel ts sv with
       | none => none
       | some (tks, sv1, evs) =>
         match sumSizes tks with
         | none => some (none, sv, evs)
         | some tsz => some (some (sv.take tsz), sv1, evs)) := rfl

theorem run_alt_eq (fuel : Nat) (l r : Tok) (sv : SV) :
    run (fuel+1) (.alt l r) sv =
      (match run fuel l sv with
       | none => none
       | some (some sp, sv1, evs1) => some (some sp, sv1, evs1)
       | some (none, sv1, evs1) =>
         match run fuel r sv1 with
         | none => none
         | some (tk2, sv2, evs2) => some (tk2, sv2, evs1 ++ evs2)) := rfl

theorem run_mapSeq_eq (fuel : Nat) (t : Tok) (o : Nat) (sv : SV) :
    run (fuel+1) (.mapSeq t o) sv =
      (match run fuel t sv with
       | none => none
       | some (none, _, evs) => some (none, sv, evs)
       | some (some sp, sv1, evs) => some (some sp, sv1, evs ++ [(o, sp)])) := rfl

theorem accum_succ_eq (fuel : Nat) (t : Tok) (sv : SV) :
    accum (fuel+1) t sv =
      (if sv.len = 0 then some (0, [])
       else
         match run fuel t sv with
         | none => none
         | some (none, _, evs) => some (0, evs)
         | some (some sp, sv1, evs) =>
           match accum fuel t sv1 with
           | none => none
           | some (sz, evs2) => some (sp.len + sz, evs ++ evs2)) := rfl

theorem exactlyLoop_zero_eq (fuel : Nat) (t : Tok) (sv : SV) :
    exactlyLoop fuel t 0 sv = some (some 0, sv, []) := by
  match fuel with
  | 0 => rfl
  | _+1 => rfl

theorem exactlyLoop_succ_eq (fuel : Nat) (t : Tok) (n : Nat) (sv : SV) :
    exactlyLoop (fuel+1) t (n+1) sv =
      (match run fuel t sv with
       | none => none
       | some (none, sv1, evs) => some (none, sv1, evs)
       | some (some sp, sv1, evs) =>
         match exactlyLoop fuel t n sv1 with
         | none => none
         | some (res, sv2, evs2) =>
           some (res.map (fun m => sp.len + m), sv2, evs ++ evs2)) := rfl

theorem runList_nil_eq (fuel : Nat) (sv : SV) :
    runList fuel [] sv = some ([], sv, []) := by
  match fuel with
  | 0 => rfl
  | _+1 => rfl

theorem runList_cons_eq (fuel : Nat) (t : Tok) (rest : List Tok) (sv : SV) :
    runList (fuel+1) (t :: rest) sv =
      (match run fuel t sv with
       | none => none
       | some (tk, sv1, evs1) =>
         match runList fuel rest sv1 with
         | none => none
         | some (tks, sv2, evs2) => some (tk :: tks, sv2, evs1 ++ evs2)) := rfl

theorem runOK_fail (sv : SV) (evs : List Event) : RunOK sv (none, sv, evs) := by
  refine ⟨fun _ => rfl, ?_, ?_⟩
  · intro sp hsp
    exact Option.noConfusion hsp
  · intro sp hsp hg
    exact Option.noConfusion hsp

theorem runOK_consume (sv : SV) (k : Nat) (evs : List Event) :
    RunOK sv (some (sv.take k), sv.drop k, evs) := by
  refine ⟨fun hc => Option.noConfusion hc, ?_, ?_⟩
  · intro sp hsp
    have h2 := Option.some.inj hsp
    subst h2
    show (sv.take k).len + (sv.drop k).len = sv.len
    rw [SV.len_take, SV.len_drop]
    omega
  · intro sp hsp hg
    have h2 := Option.some.inj hsp
    subst h2
    refine ⟨?_, ?_, SV.good_drop sv k hg⟩
    · rw [SV.take_toList_min, SV.len_take]
    · rw [SV.drop_toList_min, SV.len_take]

theorem runOK_events (sv : SV) (tk : Option SV) (sv1 : SV) (evs evs2 : List Event)
    (h : RunOK sv (tk, sv1, evs)) : RunOK sv (tk, sv1, evs2) := h

/-- Main soundness invariant of the interpreter, proved for all four
mutually recursive functions at once by induction over the fuel. -/
theorem sound (fuel : Nat) :
    (∀ t sv r, run fuel t sv = some r → RunOK sv r)
    ∧ (∀ t sv sz evs, accum fuel t sv = some (sz, evs) → sz ≤ sv.len)
    ∧ (∀ t n sv res sv2 evs, exactlyLoop fuel t n sv = some (res, sv2, evs) →
        ∀ tsz, res = some tsz → tsz + sv2.len = sv.len ∧
          (sv.Good → sv2.toList = sv.toList.drop tsz ∧ sv2.Good))
    ∧ (∀ ts sv tks sv2 evs, runList fuel ts sv = some (tks, sv2, evs) →
        ∀ tsz, sumSizes tks = some tsz → tsz + sv2.len = sv.len ∧
          (sv.Good → sv2.toList = sv.toList.drop tsz ∧ sv2.Good)) := by
  induction fuel with
  | zero =>
    refine ⟨?_, ?_, ?_, ?_⟩
    · intro t sv r h
      exact Option.noConfusion h
    · intro t sv sz evs h
      simp only [accum] at h
      split at h
      · simp only [Option.some.injEq, Prod.mk.injEq] at h
        omega
      · exact Option.noConfusion h
    · intro t n sv res sv2 evs h tsz htsz
      match n, h with
      | 0, h =>
        simp only [exactlyLoop, Option.some.injEq, Prod.mk.injEq] at h
        obtain ⟨h1, h2, h3⟩ := h
        subst h1; subst h2
        have h4 := Option.some.inj htsz
        subst h4
        exact ⟨by omega, fun hg => ⟨(List.drop_zero _).symm, hg⟩⟩
      | n+1, h => exact Option.noConfusion h
    · intro ts sv tks sv2 evs h tsz htsz
      match ts, h with
      | [], h =>
        simp only [runList, Option.some.injEq, Prod.mk.injEq] at h
        obtain ⟨h1, h2, h3⟩ := h
        subst h1; subst h2
        simp only [sumSizes, Option.some.injEq] at htsz
        subst htsz
        exact ⟨by omega, fun hg => ⟨(List.drop_zero _).symm, hg⟩⟩
      | _ :: _, h => exact Option.noConfusion h
  | succ fuel ih =>
    obtain ⟨ih1, ih2, ih3, ih4⟩ := ih
    refine ⟨?_, ?_, ?_, ?_⟩
    · intro t sv r h
      match t with
      | .singleChar p o =>
        simp only [run] at h
        split at h
        · injection h with h; subst h; exact runOK_fail sv []
        · split at h
          · injection h with h; subst h; exact runOK_consume sv 1 _
          · injection h with h; subst h; exact runOK_fail sv []
      | .strTok str o =>
        simp only [run] at h
        split at h
        · next hs =>
          injection h with h
          subst h
          refine ⟨fun hc => Option.noConfusion hc, ?_, ?_⟩
          · intro sp hsp
            have h2 := Option.some.inj hsp
            subst h2
            show (SV.ofList str).len + (sv.drop str.length).len = sv.len
            rw [SV.len_ofList, SV.len_drop]
            have := SV.startsWithL_le sv str hs
            omega
          · intro sp hsp hg
            have h2 := Option.some.inj hsp
            subst h2
            refine ⟨?_, ?_, SV.good_drop sv str.length hg⟩
            · rw [SV.toList_ofList, SV.len_ofList]
              exact SV.startsWithL_toList sv str hg hs
            · rw [SV.toList_drop, SV.len_ofList]
        · injection h with h; subst h; exact runOK_fail sv []
      | .anyOf g o =>
        simp only [run] at h
        split at h
        · injection h with h; subst h; exact runOK_consume sv 1 _
        · injection h with h; subst h; exact runOK_fail sv []
      | .noneOf g o =>
        simp only [run] at h
        split at h
        · injection h with h; subst h; exact runOK_fail sv []
        · injection h with h; subst h; exact runOK_consume sv 1 _
      | .many t o =>
        simp only [run] at h
        split at h
        · exact Option.noConfusion h
        · injection h with h; subst h; exact runOK_consume sv _ _
      | .atLeastOne t o =>
        simp only [run] at h
        split at h
        · exact Option.noConfusion h
        · next sv1 evs heq =>
          injection h with h; subst h; exact runOK_fail sv _
        · next sp1 sv1 evs1 heq =>
          split at h
          · exact Option.noConfusion h
          · next tsz evs2 hacc =>
            injection h with h
            subst h
            have hRun := ih1 t sv _ heq
            have hlen1 : sp1.len + sv1.len = sv.len := hRun.2.1 sp1 rfl
            have htle := ih2 t sv1 tsz evs2 hacc
            refine ⟨fun hc => Option.noConfusion hc, ?_, ?_⟩
            · intro sp hsp
              have h2 := Option.some.inj hsp
              subst h2
              show (sv.take (tsz + sp1.len)).len + (sv1.drop tsz).len = sv.len
              rw [SV.len_take, SV.len_drop]
              omega
            · intro sp hsp hg
              have h2 := Option.some.inj hsp
              subst h2
              have hctr := hRun.2.2 sp1 rfl hg
              have hsv1c : sv1.toList = sv.toList.drop sp1.len := hctr.2.1
              have hg1 : sv1.Good := hctr.2.2
              refine ⟨?_, ?_, SV.good_drop sv1 tsz hg1⟩
              · rw [SV.take_toList_min, SV.len_take]
              · rw [SV.len_take, Nat.min_eq_left (by omega)]
                rw [SV.toList_drop, hsv1c, List.drop_drop]
                rw [Nat.add_comm sp1.len tsz]
      | .exactly t n o =>
        simp only [run] at h
        split at h
        · exact Option.noConfusion h
        · next sv1 evs heq =>
          injection h with h; subst h; exact runOK_fail sv _
        · next tsz sv1 evs heq =>
          injection h with h
          subst h
          obtain ⟨hlen, hgood⟩ := ih3 t n sv _ _ _ heq tsz rfl
          refine ⟨fun hc => Option.noConfusion hc, ?_, ?_⟩
          · intro sp hsp
            have h2 := Option.some.inj hsp
            subst h2
            show (sv.take tsz).len + sv1.len = sv.len
            rw [SV.len_take]
            omega
          · intro sp hsp hg
            have h2 := Option.some.inj hsp
            subst h2
            obtain ⟨hc1, hc2⟩ := hgood hg
            refine ⟨?_, ?_, hc2⟩
            · rw [SV.take_toList_min, SV.len_take]
            · rw [SV.len_take, Nat.min_eq_left (by omega), hc1]
      | .maybe t o =>
        simp only [run] at h
        split at h
        · exact Option.noConfusion h
        · next sv1 evs heq =>
          injection h with h
          subst h
          have hRun := ih1 t sv _ heq
          have hfail : sv1 = sv := hRun.1 rfl
          refine ⟨fun hc => Option.noConfusion hc, ?_, ?_⟩
          · intro sp hsp
            have h2 := Option.some.inj hsp
            subst h2
            show ([] : List Char).length + sv1.len = sv.len
            simp [hfail]
          · intro sp hsp hg
            have h2 := Option.some.inj hsp
            subst h2
            refine ⟨?_, ?_, by rw [hfail]; exact hg⟩
            · rw [SV.toList_ofList]
              show ([] : List Char) = sv.toList.take ([] : List Char).length
              simp
            · show sv1.toList = sv.toList.drop ([] : List Char).length
              simp [hfail]
        · next sp1 sv1 evs heq =>
          injection h with h
          subst h
          exact runOK_events sv _ sv1 _ _ (ih1 t sv _ heq)
      | .seq ts =>
        simp only [run] at h
        split at h
        · exact Option.noConfusion h
        · next tks sv1 evs heq =>
          split at h
          · injection h with h; subst h; exact runOK_fail sv _
          · next tsz hsum =>
            injection h with h
            subst h
            obtain ⟨hlen, hgood⟩ := ih4 ts sv _ _ _ heq tsz hsum
            refine ⟨fun hc => Option.noConfusion hc, ?_, ?_⟩
            · intro sp hsp
              have h2 := Option.some.inj hsp
              subst h2
              show (sv.take tsz).len + sv1.len = sv.len
              rw [SV.len_take]
              omega
            · intro sp hsp hg
              have h2 := Option.some.inj hsp
              subst h2
              obtain ⟨hc1, hc2⟩ := hgood hg
              refine ⟨?_, ?_, hc2⟩
              · rw [SV.take_toList_min, SV.len_take]
              · rw [SV.len_take, Nat.min_eq_left (by omega), hc1]
      | .alt l r =>
        simp only [run] at h
        split at h
        · exact Option.noConfusion h
        · next sp1 sv1 evs1 heq =>
          injection h with h
          subst h
          exact ih1 l sv _ heq
        · next sv1 evs1 heq =>
          have hfail : sv1 = sv := (ih1 l sv _ heq).1 rfl
          rw [hfail] at h
          split at h
          · exact Option.noConfusion h
          · next tk2 sv2 evs2 heq2 =>
            injection h with h
            subst h
            exact runOK_events sv tk2 sv2 _ _ (ih1 r sv _ heq2)
      | .mapSeq t o =>
        simp only [run] at h
        split at h
        · exact Option.noConfusion h
        · next sv1 evs heq =>
          injection h with h; subst h; exact runOK_fail sv _
        · next sp1 sv1 evs heq =>
          injection h with h
          subst h
          exact runOK_events sv _ sv1 _ _ (ih1 t sv _ heq)
    · intro t sv sz evs h
      simp only [accum] at h
      split at h
      · simp only [Option.some.injEq, Prod.mk.injEq] at h
        omega
      · split at h
        · exact Option.noConfusion h
        · next sv1 evs0 heq =>
          simp only [Option.some.injEq, Prod.mk.injEq] at h
          omega
        · next sp sv1 evs0 heq =>
          split at h
          · exact Option.noConfusion h
          · next sz1 evs2 hacc =>
            simp only [Option.some.injEq, Prod.mk.injEq] at h
            have hlen : sp.len + sv1.len = sv.len := (ih1 t sv _ heq).2.1 sp rfl
            have hle := ih2 t sv1 sz1 evs2 hacc
            omega
    · intro t n sv res sv2 evs h tsz htsz
      match n, h with
      | 0, h =>
        simp only [exactlyLoop, Option.some.injEq, Prod.mk.injEq] at h
        obtain ⟨h1, h2, h3⟩ := h
        subst h1; subst h2
        have h4 := Option.some.inj htsz
        subst h4
        exact ⟨by omega, fun hg => ⟨(List.drop_zero _).symm, hg⟩⟩
      | n+1, h =>
        simp only [exactlyLoop] at h
        split at h
        · exact Option.noConfusion h
        · next sv1 evs0 heq =>
          simp only [Option.some.injEq, Prod.mk.injEq] at h
          obtain ⟨h1, h2, h3⟩ := h
          subst h1
          exact Option.noConfusion htsz
        · next sp sv1 evs0 heq =>
          split at h
          · exact Option.noConfusion h
          · next res1 sv2a evs2 hrec =>
            simp only [Option.some.injEq, Prod.mk.injEq] at h
            obtain ⟨h1, h2, h3⟩ := h
            subst h1; subst h2
            match res1, htsz with
            | some m, htsz =>
              have h4 : sp.len + m = tsz := Option.some.inj htsz
              subst h4
              obtain ⟨hmlen, hmgood⟩ := ih3 t n sv1 _ _ _ hrec m rfl
              have hRun := ih1 t sv _ heq
              have hlen1 : sp.len + sv1.len = sv.len := hRun.2.1 sp rfl
              refine ⟨by omega, ?_⟩
              intro hg
              have hctr := hRun.2.2 sp rfl hg
              have hsv1c : sv1.toList = sv.toList.drop sp.len := hctr.2.1
              have hg1 : sv1.Good := hctr.2.2
              obtain ⟨hc1, hc2⟩ := hmgood hg1
              refine ⟨?_, hc2⟩
              rw [hc1, hsv1c, List.drop_drop]
    · intro ts sv tks sv2 evs h tsz htsz
      match ts, h with
      | [], h =>
        simp only [runList, Option.some.injEq, Prod.mk.injEq] at h
        obtain ⟨h1, h2, h3⟩ := h
        subst h1; subst h2
        simp only [sumSizes, Option.some.injEq] at htsz
        subst htsz
        exact ⟨by omega, fun hg => ⟨(List.drop_zero _).symm, hg⟩⟩
      | t :: rest, h =>
        simp only [runList] at h
        split at h
        · exact Option.noConfusion h
        · next tk sv1 evs1 heq =>
          split at h
          · exact Option.noConfusion h
          · next tks1 sv2a evs2 hrec =>
            simp only [Option.some.injEq, Prod.mk.injEq] at h
            obtain ⟨h1, h2, h3⟩ := h
            subst h1; subst h2
            match tk, htsz with
            | some sp, htsz =>
              simp only [sumSizes] at htsz
              split at htsz
              · exact Option.noConfusion htsz
              · next m hm =>
                have h4 := Option.some.inj htsz
                subst h4
                obtain ⟨hmlen, hmgood⟩ := ih4 rest sv1 _ _ _ hrec m hm
                have hRun := ih1 t sv _ heq
                have hlen1 : sp.len + sv1.len = sv.len := hRun.2.1 sp rfl
                refine ⟨by omega, ?_⟩
                intro hg
                have hctr := hRun.2.2 sp rfl hg
                have hsv1c : sv1.toList = sv.toList.drop sp.len := hctr.2.1
                have hg1 : sv1.Good := hctr.2.2
                obtain ⟨hc1, hc2⟩ := hmgood hg1
                refine ⟨?_, hc2⟩
                rw [hc1, hsv1c, List.drop_drop]

/-- Fuel monotonicity: a result delivered at some fuel level is
delivered unchanged at every higher fuel level, for all four mutually
recursive functions. -/
theorem mono (fuel : Nat) :
    (∀ t sv r, run fuel t sv = some r → run (fuel+1) t sv = some r)
    ∧ (∀ t sv r, accum fuel t sv = some r → accum (fuel+1) t sv = some r)
    ∧ (∀ t n sv r, exactlyLoop fuel t n sv = some r → exactlyLoop (fuel+1) t n sv = some r)
    ∧ (∀ ts sv r, runList fuel ts sv = some r → runList (fuel+1) ts sv = some r) := by
  induction fuel with
  | zero =>
    refine ⟨?_, ?_, ?_, ?_⟩
    · intro t sv r h
      exact Option.noConfusion h
    · intro t sv r h
      simp only [accum] at h
      rw [accum_succ_eq]
      split at h
      · next h0 => rw [if_pos h0]; exact h
      · exact Option.noConfusion h
    · intro t n sv r h
      match n, h with
      | 0, h => rw [exactlyLoop_zero_eq] at h; rw [exactlyLoop_zero_eq]; exact h
      | n+1, h => exact Option.noConfusion h
    · intro ts sv r h
      match ts, h with
      | [], h => rw [runList_nil_eq] at h; rw [runList_nil_eq]; exact h
      | _ :: _, h => exact Option.noConfusion h
  | succ fuel ih =>
    obtain ⟨ih1, ih2, ih3, ih4⟩ := ih
    refine ⟨?_, ?_, ?_, ?_⟩
    · intro t sv r h
      match t with
      | .singleChar p o => rw [run_singleChar_eq] at h ⊢; exact h
      | .strTok str o => rw [run_strTok_eq] at h ⊢; exact h
      | .anyOf g o => rw [run_anyOf_eq] at h ⊢; exact h
      | .noneOf g o => rw [run_noneOf_eq] at h ⊢; exact h
      | .many t o =>
        rw [run_many_eq] at h ⊢
        split at h
        · exact Option.noConfusion h
        · next sz evs heq =>
          rw [ih2 t sv _ heq]
          exact h
      | .atLeastOne t o =>
        rw [run_atLeastOne_eq] at h ⊢
        split at h
        · exact Option.noConfusion h
        · next sv1 evs heq =>
          rw [ih1 t sv _ heq]
          exact h
        · next sp1 sv1 evs1 heq =>
          rw [ih1 t sv _ heq]
          show (match accum (fuel+1) t sv1 with
            | none => none
            | some (tsz, evs2) =>
              some (some (sv.take (tsz + sp1.len)), sv1.drop tsz,
                    evs1 ++ evs2 ++ [(o, sv.take (tsz + sp1.len))])) = some r
          split at h
          · exact Option.noConfusion h
          · next tsz evs2 hacc =>
            rw [ih2 t sv1 _ hacc]
            exact h
      | .exactly t n o =>
        rw [run_exactly_eq] at h ⊢
        split at h
        · exact Option.noConfusion h
        · next sv1 evs heq =>
          rw [ih3 t n sv _ heq]
          exact h
        · next tsz sv1 evs heq =>
          rw [ih3 t n sv _ heq]
          exact h
      | .maybe t o =>
        rw [run_maybe_eq] at h ⊢
        split at h
        · exact Option.noConfusion h
        · next sv1 evs heq =>
          rw [ih1 t sv _ heq]
          exact h
        · next sp1 sv1 evs heq =>
          rw [ih1 t sv _ heq]
          exact h
      | .seq ts =>
        rw [run_seq_eq] at h ⊢
        split at h
        · exact Option.noConfusion h
        · next tks sv1 evs heq =>
          rw [ih4 ts sv _ heq]
          exact h
      | .alt tl tr =>
        rw [run_alt_eq] at h ⊢
        split at h
        · exact Option.noConfusion h
        · next sp1 sv1 evs1 heq =>
          rw [ih1 tl sv _ heq]
          exact h
        · next sv1 evs1 heq =>
          rw [ih1 tl sv _ heq]
          show (match run (fuel+1) tr sv1 with
            | none => none
            | some (tk2, sv2, evs2) => some (tk2, sv2, evs1 ++ evs2)) = some r
          split at h
          · exact Option.noConfusion h
          · next tk2 sv2 evs2 heq2 =>
            rw [ih1 tr sv1 _ heq2]
            exact h
      | .mapSeq t o =>
        rw [run_mapSeq_eq] at h ⊢
        split at h
        · exact Option.noConfusion h
        · next sv1 evs heq =>
          rw [ih1 t sv _ heq]
          exact h
        · next sp1 sv1 evs heq =>
          rw [ih1 t sv _ heq]
          exact h
    · intro t sv r h
      rw [accum_succ_eq] at h ⊢
      split at h
      · next h0 => rw [if_pos h0]; exact h
      · next h0 =>
        rw [if_neg h0]
        split at h
        · exact Option.noConfusion h
        · next sv1 evs heq =>
          rw [ih1 t sv _ heq]
          exact h
        · next sp sv1 evs heq =>
          rw [ih1 t sv _ heq]
          show (match accum (fuel+1) t sv1 with
            | none => none
            | some (sz, evs2) => some (sp.len + sz, evs ++ evs2)) = some r
          split at h
          · exact Option.noConfusion h
          · next sz evs2 hacc =>
            rw [ih2 t sv1 _ hacc]
            exact h
    · intro t n sv r h
      match n, h with
      | 0, h => rw [exactlyLoop_zero_eq] at h; rw [exactlyLoop_zero_eq]; exact h
      | n+1, h =>
        rw [exactlyLoop_succ_eq] at h ⊢
        split at h
        · exact Option.noConfusion h
        · next sv1 evs heq =>
          rw [ih1 t sv _ heq]
          exact h
        · next sp sv1 evs heq =>
          rw [ih1 t sv _ heq]
          show (match exactlyLoop (fuel+1) t n sv1 with
            | none => none
            | some (res, sv2, evs2) =>
              some (res.map (fun m => sp.len + m), sv2, evs ++ evs2)) = some r
          split at h
          · exact Option.noConfusion h
          · next res1 sv2 evs2 hrec =>
            rw [ih3 t n sv1 _ hrec]
            exact h
    · intro ts sv r h
      match ts, h with
      | [], h => rw [runList_nil_eq] at h; rw [runList_nil_eq]; exact h
      | t :: rest, h =>
        rw [runList_cons_eq] at h ⊢
        split at h
        · exact Option.noConfusion h
        · next tk sv1 evs1 heq =>
          rw [ih1 t sv _ heq]
          show (match runList (fuel+1) rest sv1 with
            | none => none
            | some (tks, sv2, evs2) => some (tk :: tks, sv2, evs1 ++ evs2)) = some r
          split at h
          · exact Option.noConfusion h
          · next tks sv2 evs2 hrec =>
            rw [ih4 rest sv1 _ hrec]
            exact h

/-- Fuel monotonicity of `run` between arbitrary fuel levels. -/
theorem run_mono_le (fuel fuel2 : Nat) (hle : fuel ≤ fuel2) (t : Tok) (sv : SV)
    (r : RunRes) (h : run fuel t sv = some r) : run fuel2 t sv = some r := by
  induction hle with
  | refl => exact h
  | step _ ih => exact (mono _).1 t sv r ih

/-- Fuel monotonicity of `accum` between arbitrary fuel levels. -/
theorem accum_mono_le (fuel fuel2 : Nat) (hle : fuel ≤ fuel2) (t : Tok) (sv : SV)
    (r : Nat × List Event) (h : accum fuel t sv = some r) : accum fuel2 t sv = some r := by
  induction hle with
  | refl => exact h
  | step _ ih => exact (mono _).2.1 t sv r ih

/-- Fuel monotonicity of `exactlyLoop` between arbitrary fuel levels. -/
theorem exactlyLoop_mono_le (fuel fuel2 : Nat) (hle : fuel ≤ fuel2) (t : Tok) (n : Nat)
    (sv : SV) (r : Option Nat × SV × List Event) (h : exactlyLoop fuel t n sv = some r) :
    exactlyLoop fuel2 t n sv = some r := by
  induction hle with
  | refl => exact h
  | step _ ih => exact (mono _).2.2.1 t n sv r ih

/-- Fuel monotonicity of `runList` between arbitrary fuel levels. -/
theorem runList_mono_le (fuel fuel2 : Nat) (hle : fuel ≤ fuel2) (ts : List Tok)
    (sv : SV) (r : List (Option SV) × SV × List Event) (h : runList fuel ts sv = some r) :
    runList fuel2 ts sv = some r := by
  induction hle with
  | refl => exact h
  | step _ ih => exact (mono _).2.2.2 ts sv r ih

/-- Corollary of `sound`: failing applications leave the cursor
exactly where it was. -/
theorem run_fail_cursor (fuel : Nat) (t : Tok) (sv sv1 : SV) (evs : List Event)
    (h : run fuel t sv = some (none, sv1, evs)) : sv1 = sv :=
  ((sound fuel).1 t sv _ h).1 rfl

/-- Corollary of `sound`: the span length plus the remaining length is
the pre-call length on success. -/
theorem run_success_len (fuel : Nat) (t : Tok) (sv sv1 sp : SV) (evs : List Event)
    (h : run fuel t sv = some (some sp, sv1, evs)) : sp.len + sv1.len = sv.len :=
  ((sound fuel).1 t sv _ h).2.1 sp rfl

/-- Soundness of the syntactic progressivity check `progOK`: such a
tokenizer consumes at least one unit whenever it succeeds on a
nonempty cursor. -/
theorem progOK_sound (t : Tok) (hp : progOK t = true) :
    ∀ fuel sv sp sv1 evs, run fuel t sv = some (some sp, sv1, evs) →
      sv.len ≠ 0 → 1 ≤ sp.len := by
  match t with
  | .singleChar p o =>
    intro fuel sv sp sv1 evs h hne
    match fuel, h with
    | fuel+1, h =>
      rw [run_singleChar_eq] at h
      split at h
      · simp only [Option.some.injEq, Prod.mk.injEq] at h
        exact Option.noConfusion h.1
      · split at h
        · simp only [Option.some.injEq, Prod.mk.injEq] at h
          obtain ⟨h1, -⟩ := h
          subst h1
          rw [SV.len_take]
          omega
        · simp only [Option.some.injEq, Prod.mk.injEq] at h
          exact Option.noConfusion h.1
  | .strTok str o =>
    intro fuel sv sp sv1 evs h hne
    have hstr : str ≠ [] := by
      simp only [progOK, decide_eq_true_eq] at hp
      exact hp
    match fuel, h with
    | fuel+1, h =>
      rw [run_strTok_eq] at h
      split at h
      · simp only [Option.some.injEq, Prod.mk.injEq] at h
        obtain ⟨h1, -⟩ := h
        subst h1
        rw [SV.len_ofList]
        exact List.length_pos.mpr hstr
      · simp only [Option.some.injEq, Prod.mk.injEq] at h
        exact Option.noConfusion h.1
  | .anyOf g o =>
    intro fuel sv sp sv1 evs h hne
    match fuel, h with
    | fuel+1, h =>
      rw [run_anyOf_eq] at h
      split at h
      · simp only [Option.some.injEq, Prod.mk.injEq] at h
        obtain ⟨h1, -⟩ := h
        subst h1
        rw [SV.len_take]
        omega
      · simp only [Option.some.injEq, Prod.mk.injEq] at h
        exact Option.noConfusion h.1
  | .noneOf g o =>
    intro fuel sv sp sv1 evs h hne
    match fuel, h with
    | fuel+1, h =>
      rw [run_noneOf_eq] at h
      split at h
      · simp only [Option.some.injEq, Prod.mk.injEq] at h
        exact Option.noConfusion h.1
      · simp only [Option.some.injEq, Prod.mk.injEq] at h
        obtain ⟨h1, -⟩ := h
        subst h1
        rw [SV.len_take]
        omega
  | .many t o => exact absurd hp (by simp [progOK])
  | .maybe t o => exact absurd hp (by simp [progOK])
  | .seq [] => exact absurd hp (by simp [progOK])
  | .seq (t1 :: rest) =>
    have hp1 : progOK t1 = true := hp
    intro fuel sv sp sv1 evs h hne
    match fuel, h with
    | fuel+1, h =>
      rw [run_seq_eq] at h
      split at h
      · exact Option.noConfusion h
      · next tks svA evsA heq =>
        split at h
        · simp only [Option.some.injEq, Prod.mk.injEq] at h
          exact Option.noConfusion h.1
        · next tsz hsum =>
          simp only [Option.some.injEq, Prod.mk.injEq] at h
          obtain ⟨h1, -⟩ := h
          subst h1
          rw [SV.len_take]
          match fuel, heq with
          | fuel2+1, heq =>
            rw [runList_cons_eq] at heq
            split at heq
            · exact Option.noConfusion heq
            · next tk svB evsB heqB =>
              split at heq
              · exact Option.noConfusion heq
              · next tksC svC evsC heqC =>
                simp only [Option.some.injEq, Prod.mk.injEq] at heq
                obtain ⟨hk1, -⟩ := heq
                subst hk1
                match tk, hsum with
                | some sp1, hsum =>
                  simp only [sumSizes] at hsum
                  split at hsum
                  · exact Option.noConfusion hsum
                  · next m hm =>
                    have h4 := Option.some.inj hsum
                    have hs1 := progOK_sound t1 hp1 fuel2 sv sp1 svB evsB heqB hne
                    omega
  | .alt l r =>
    have hpl : progOK l = true := by
      simp only [progOK, Bool.and_eq_true] at hp
      exact hp.1
    have hpr : progOK r = true := by
      simp only [progOK, Bool.and_eq_true] at hp
      exact hp.2
    intro fuel sv sp sv1 evs h hne
    match fuel, h with
    | fuel+1, h =>
      rw [run_alt_eq] at h
      split at h
      · exact Option.noConfusion h
      · next sp1 svA evsA heq =>
        simp only [Option.some.injEq, Prod.mk.injEq] at h
        obtain ⟨h1, -⟩ := h
        subst h1
        exact progOK_sound l hpl fuel sv sp1 svA evsA heq hne
      · next svA evsA heq =>
        have hA : svA = sv := run_fail_cursor fuel l sv svA evsA heq
        rw [hA] at h
        split at h
        · exact Option.noConfusion h
        · next tk2 sv2 evs2 heq2 =>
          simp only [Option.some.injEq, Prod.mk.injEq] at h
          obtain ⟨h1, -⟩ := h
          subst h1
          exact progOK_sound r hpr fuel sv sp sv2 evs2 heq2 hne
  | .atLeastOne t o =>
    have hpt : progOK t = true := hp
    intro fuel sv sp sv1 evs h hne
    match fuel, h with
    | fuel+1, h =>
      rw [run_atLeastOne_eq] at h
      split at h
      · exact Option.noConfusion h
      · next svA evsA heq =>
        simp only [Option.some.injEq, Prod.mk.injEq] at h
        exact Option.noConfusion h.1
      · next sp1 svA evsA heq =>
        split at h
        · exact Option.noConfusion h
        · next tsz evs2 hacc =>
          simp only [Option.some.injEq, Prod.mk.injEq] at h
          obtain ⟨h1, -⟩ := h
          subst h1
          rw [SV.len_take]
          have hs1 := progOK_sound t hpt fuel sv sp1 svA evsA heq hne
          omega
  | .exactly t n o =>
    have hpt : progOK t = true := by
      simp only [progOK, Bool.and_eq_true] at hp
      exact hp.1
    have hn : 0 < n := by
      simp only [progOK, Bool.and_eq_true, decide_eq_true_eq] at hp
      exact hp.2
    intro fuel sv sp sv1 evs h hne
    match fuel, h with
    | fuel+1, h =>
      rw [run_exactly_eq] at h
      split at h
      · exact Option.noConfusion h
      · next svA evsA heq =>
        simp only [Option.some.injEq, Prod.mk.injEq] at h
        exact Option.noConfusion h.1
      · next tsz svA evsA heq =>
        simp only [Option.some.injEq, Prod.mk.injEq] at h
        obtain ⟨h1, -⟩ := h
        subst h1
        rw [SV.len_take]
        match n, hn with
        | m+1, hn =>
          match fuel, heq with
          | fuel2+1, heq =>
            rw [exactlyLoop_succ_eq] at heq
            split at heq
            · exact Option.noConfusion heq
            · next svB evsB heqB =>
              simp only [Option.some.injEq, Prod.mk.injEq] at heq
              exact Option.noConfusion heq.1
            · next sp1 svB evsB heqB =>
              split at heq
              · exact Option.noConfusion heq
              · next res1 svC evsC heqC =>
                simp only [Option.some.injEq, Prod.mk.injEq] at heq
                obtain ⟨hk1, -⟩ := heq
                have hs1 := progOK_sound t hpt fuel2 sv sp1 svB evsB heqB hne
                match res1, hk1 with
                | some mm, hk1 =>
                  have h4 : sp1.len + mm = tsz := Option.some.inj hk1
                  omega
  | .mapSeq t o =>
    have hpt : progOK t = true := hp
    intro fuel sv sp sv1 evs h hne
    match fuel, h with
    | fuel+1, h =>
      rw [run_mapSeq_eq] at h
      split at h
      · exact Option.noConfusion h
      · next svA evsA heq =>
        simp only [Option.some.injEq, Prod.mk.injEq] at h
        exact Option.noConfusion h.1
      · next sp1 svA evsA heq =>
        simp only [Option.some.injEq, Prod.mk.injEq] at h
        obtain ⟨h1, -⟩ := h
        subst h1
        exact progOK_sound t hpt fuel sv sp1 svA evsA heq hne

/-- If the inner tokenizer always terminates and consumes at least one
unit on every success on nonempty input, the accumulation loop of
`many`/`at_least_one` terminates. -/
theorem accum_term (t : Tok)
    (hterm : ∀ sv, ∃ fuel r, run fuel t sv = some r)
    (hcons : ∀ fuel sv sp sv1 evs, run fuel t sv = some (some sp, sv1, evs) →
      sv.len ≠ 0 → 1 ≤ sp.len) :
    ∀ sv, ∃ fuel r, accum fuel t sv = some r := by
  have H : ∀ n (sv : SV), sv.len ≤ n → ∃ fuel r, accum fuel t sv = some r := by
    intro n
    induction n with
    | zero =>
      intro sv hle
      exact ⟨1, (0, []), by rw [accum_succ_eq, if_pos (by omega)]⟩
    | succ n IH =>
      intro sv hle
      by_cases h0 : sv.len = 0
      · exact ⟨1, (0, []), by rw [accum_succ_eq, if_pos h0]⟩
      · obtain ⟨fuel1, r1, hr1⟩ := hterm sv
        match r1, hr1 with
        | (none, sv1, evs), hr1 =>
          refine ⟨fuel1+1, (0, evs), ?_⟩
          rw [accum_succ_eq, if_neg h0, hr1]
        | (some sp, sv1, evs), hr1 =>
          have hsp : 1 ≤ sp.len := hcons fuel1 sv sp sv1 evs hr1 h0
          have hlen : sp.len + sv1.len = sv.len := run_success_len fuel1 t sv sv1 sp evs hr1
          obtain ⟨fuel2, r2, hr2⟩ := IH sv1 (by omega)
          match r2, hr2 with
          | (sz, evs2), hr2 =>
            refine ⟨(max fuel1 fuel2)+1, (sp.len + sz, evs ++ evs2), ?_⟩
            rw [accum_succ_eq, if_neg h0,
                run_mono_le fuel1 (max fuel1 fuel2) (le_max_left _ _) t sv _ hr1]
            show (match accum (max fuel1 fuel2) t sv1 with
              | none => none
              | some (sz, evs2) => some (sp.len + sz, evs ++ evs2))
              = some (sp.len + sz, evs ++ evs2)
            rw [accum_mono_le fuel2 (max fuel1 fuel2) (le_max_right _ _) t sv1 _ hr2]
  intro sv
  exact H sv.len sv le_rfl

/-- If the inner tokenizer always terminates, the counted loop of
`exactly` terminates for every count. -/
theorem exactlyLoop_term (t : Tok)
    (hterm : ∀ sv, ∃ fuel r, run fuel t sv = some r) :
    ∀ n sv, ∃ fuel r, exactlyLoop fuel t n sv = some r := by
  intro n
  induction n with
  | zero =>
    intro sv
    exact ⟨1, (some 0, sv, []), exactlyLoop_zero_eq 1 t sv⟩
  | succ n IH =>
    intro sv
    obtain ⟨fuel1, r1, hr1⟩ := hterm sv
    match r1, hr1 with
    | (none, sv1, evs), hr1 =>
      refine ⟨fuel1+1, (none, sv1, evs), ?_⟩
      rw [exactlyLoop_succ_eq, hr1]
    | (some sp, sv1, evs), hr1 =>
      obtain ⟨fuel2, r2, hr2⟩ := IH sv1
      match r2, hr2 with
      | (res, sv2, evs2), hr2 =>
        refine ⟨(max fuel1 fuel2)+1,
          (res.map (fun m => sp.len + m), sv2, evs ++ evs2), ?_⟩
        rw [exactlyLoop_succ_eq,
            run_mono_le fuel1 (max fuel1 fuel2) (le_max_left _ _) t sv _ hr1]
        show (match exactlyLoop (max fuel1 fuel2) t n sv1 with
          | none => none
          | some (res, sv2, evs2) =>
            some (res.map (fun m => sp.len + m), sv2, evs ++ evs2))
          = some (res.map (fun m => sp.len + m), sv2, evs ++ evs2)
        rw [exactlyLoop_mono_le fuel2 (max fuel1 fuel2) (le_max_right _ _) t n sv1 _ hr2]

mutual

/-- Every tokenizer whose repetition bodies are surely consuming
(`repOk`) terminates on every input. -/
theorem term_run (t : Tok) (h : repOk t = true) : ∀ sv, ∃ fuel r, run fuel t sv = some r := by
  match t with
  | .singleChar p o =>
    intro sv
    refine ⟨1, ?_⟩
    rw [run_singleChar_eq]
    split
    · exact ⟨_, rfl⟩
    · split
      · exact ⟨_, rfl⟩
      · exact ⟨_, rfl⟩
  | .strTok str o =>
    intro sv
    refine ⟨1, ?_⟩
    rw [run_strTok_eq]
    split
    · exact ⟨_, rfl⟩
    · exact ⟨_, rfl⟩
  | .anyOf g o =>
    intro sv
    refine ⟨1, ?_⟩
    rw [run_anyOf_eq]
    split
    · exact ⟨_, rfl⟩
    · exact ⟨_, rfl⟩
  | .noneOf g o =>
    intro sv
    refine ⟨1, ?_⟩
    rw [run_noneOf_eq]
    split
    · exact ⟨_, rfl⟩
    · exact ⟨_, rfl⟩
  | .many t o =>
    have hprog : progOK t = true := by
      simp only [repOk, Bool.and_eq_true] at h
      exact h.1
    have hrep : repOk t = true := by
      simp only [repOk, Bool.and_eq_true] at h
      exact h.2
    intro sv
    obtain ⟨fuel1, r1, hr1⟩ :=
      accum_term t (term_run t hrep) (progOK_sound t hprog) sv
    match r1, hr1 with
    | (sz, evs), hr1 =>
      refine ⟨fuel1+1, (some (sv.take sz), sv.drop sz, evs ++ [(o, sv.take sz)]), ?_⟩
      rw [run_many_eq, hr1]
  | .atLeastOne t o =>
    have hprog : progOK t = true := by
      simp only [repOk, Bool.and_eq_true] at h
      exact h.1
    have hrep : repOk t = true := by
      simp only [repOk, Bool.and_eq_true] at h
      exact h.2
    intro sv
    obtain ⟨fuel1, r1, hr1⟩ := term_run t hrep sv
    match r1, hr1 with
    | (none, sv1, evs), hr1 =>
      refine ⟨fuel1+1, (none, sv, evs), ?_⟩
      rw [run_atLeastOne_eq, hr1]
    | (some sp1, sv1, evs1), hr1 =>
      obtain ⟨fuel2, r2, hr2⟩ :=
        accum_term t (term_run t hrep) (progOK_sound t hprog) sv1
      match r2, hr2 with
      | (tsz, evs2), hr2 =>
        refine ⟨(max fuel1 fuel2)+1,
          (some (sv.take (tsz + sp1.len)), sv1.drop tsz,
           evs1 ++ evs2 ++ [(o, sv.take (tsz + sp1.len))]), ?_⟩
        rw [run_atLeastOne_eq,
            run_mono_le fuel1 (max fuel1 fuel2) (le_max_left _ _) t sv _ hr1]
        show (match accum (max fuel1 fuel2) t sv1 with
          | none => none
          | some (tsz, evs2) =>
            some (some (sv.take (tsz + sp1.len)), sv1.drop tsz,
                  evs1 ++ evs2 ++ [(o, sv.take (tsz + sp1.len))]))
          = some (some (sv.take (tsz + sp1.len)), sv1.drop tsz,
                  evs1 ++ evs2 ++ [(o, sv.take (tsz + sp1.len))])
        rw [accum_mono_le fuel2 (max fuel1 fuel2) (le_max_right _ _) t sv1 _ hr2]
  | .exactly t n o =>
    have hrep : repOk t = true := h
    intro sv
    obtain ⟨fuel1, r1, hr1⟩ := exactlyLoop_term t (term_run t hrep) n sv
    match r1, hr1 with
    | (none, sv1, evs), hr1 =>
      refine ⟨fuel1+1, (none, sv, evs), ?_⟩
      rw [run_exactly_eq, hr1]
    | (some tsz, sv1, evs), hr1 =>
      refine ⟨fuel1+1, (some (sv.take tsz), sv1, evs ++ [(o, sv.take tsz)]), ?_⟩
      rw [run_exactly_eq, hr1]
  | .maybe t o =>
    have hrep : repOk t = true := h
    intro sv
    obtain ⟨fuel1, r1, hr1⟩ := term_run t hrep sv
    match r1, hr1 with
    | (none, sv1, evs), hr1 =>
      refine ⟨fuel1+1, (some (SV.ofList []), sv1, evs ++ [(o, SV.ofList [])]), ?_⟩
      rw [run_maybe_eq, hr1]
    | (some sp, sv1, evs), hr1 =>
      refine ⟨fuel1+1, (some sp, sv1, evs ++ [(o, sp)]), ?_⟩
      rw [run_maybe_eq, hr1]
  | .seq ts =>
    have hrep : repOkList ts = true := h
    intro sv
    obtain ⟨fuel1, r1, hr1⟩ := term_runList ts hrep sv
    match r1, hr1 with
    | (tks, sv1, evs), hr1 =>
      refine ⟨fuel1+1, ?_⟩
      rw [run_seq_eq, hr1]
      show ∃ r, (match sumSizes tks with
        | none => some (none, sv, evs)
        | some tsz => some (some (sv.take tsz), sv1, evs)) = some r
      rcases hsum : sumSizes tks with _ | tsz
      · exact ⟨_, rfl⟩
      · exact ⟨_, rfl⟩
  | .alt l r =>
    have hl : repOk l = true := by
      simp only [repOk, Bool.and_eq_true] at h
      exact h.1
    have hr : repOk r = true := by
      simp only [repOk, Bool.and_eq_true] at h
      exact h.2
    intro sv
    obtain ⟨fuel1, r1, hr1⟩ := term_run l hl sv
    match r1, hr1 with
    | (some sp, sv1, evs1), hr1 =>
      refine ⟨fuel1+1, (some sp, sv1, evs1), ?_⟩
      rw [run_alt_eq, hr1]
    | (none, sv1, evs1), hr1 =>
      obtain ⟨fuel2, r2, hr2⟩ := term_run r hr sv1
      match r2, hr2 with
      | (tk2, sv2, evs2), hr2 =>
        refine ⟨(max fuel1 fuel2)+1, (tk2, sv2, evs1 ++ evs2), ?_⟩
        rw [run_alt_eq,
            run_mono_le fuel1 (max fuel1 fuel2) (le_max_left _ _) l sv _ hr1]
        show (match run (max fuel1 fuel2) r sv1 with
          | none => none
          | some (tk2, sv2, evs2) => some (tk2, sv2, evs1 ++ evs2))
          = some (tk2, sv2, evs1 ++ evs2)
        rw [run_mono_le fuel2 (max fuel1 fuel2) (le_max_right _ _) r sv1 _ hr2]
  | .mapSeq t o =>
    have hrep : repOk t = true := h
    intro sv
    obtain ⟨fuel1, r1, hr1⟩ := term_run t hrep sv
    match r1, hr1 with
    | (none, sv1, evs), hr1 =>
      refine ⟨fuel1+1, (none, sv, evs), ?_⟩
      rw [run_mapSeq_eq, hr1]
    | (some sp, sv1, evs), hr1 =>
      refine ⟨fuel1+1, (some sp, sv1, evs ++ [(o, sp)]), ?_⟩
      rw [run_mapSeq_eq, hr1]

/-- Termination of the sequential application of a list of `repOk`
tokenizers. -/
theorem term_runList (ts : List Tok) (h : repOkList ts = true) :
    ∀ sv, ∃ fuel r, runList fuel ts sv = some r := by
  match ts with
  | [] =>
    intro sv
    exact ⟨1, ([], sv, []), runList_nil_eq 1 sv⟩
  | t :: rest =>
    have ht : repOk t = true := by
      simp only [repOkList, Bool.and_eq_true] at h
      exact h.1
    have hrest : repOkList rest = true := by
      simp only [repOkList, Bool.and_eq_true] at h
      exact h.2
    intro sv
    obtain ⟨fuel1, r1, hr1⟩ := term_run t ht sv
    match r1, hr1 with
    | (tk, sv1, evs1), hr1 =>
      obtain ⟨fuel2, r2, hr2⟩ := term_runList rest hrest sv1
      match r2, hr2 with
      | (tks, sv2, evs2), hr2 =>
        refine ⟨(max fuel1 fuel2)+1, (tk :: tks, sv2, evs1 ++ evs2), ?_⟩
        rw [runList_cons_eq,
            run_mono_le fuel1 (max fuel1 fuel2) (le_max_left _ _) t sv _ hr1]
        show (match runList (max fuel1 fuel2) rest sv1 with
          | none => none
          | some (tks, sv2, evs2) => some (tk :: tks, sv2, evs1 ++ evs2))
          = some (tk :: tks, sv2, evs1 ++ evs2)
        rw [runList_mono_le fuel2 (max fuel1 fuel2) (le_max_right _ _) rest sv1 _ hr2]

end

/-- On input "b", `maybe(char_token 'a')` succeeds with an empty span
and does not move the cursor (given enough fuel). -/
theorem maybe_stall_eval (f : Nat) :
    run (f+1+1) (Tok.maybe (char_token 'a' 1) 2) ⟨['b'], 0, 1⟩ =
      some (some (SV.ofList []), ⟨['b'], 0, 1⟩, [(2, SV.ofList [])]) := by
  rw [run_maybe_eq]
  simp only [char_token]
  rw [run_singleChar_eq, if_neg (by decide), if_neg (by decide)]
  rfl

/-- The accumulation loop of `many` over `maybe(char_token 'a')` on
"b" never returns: every iteration succeeds with an empty span and
leaves the nonempty input unchanged, mirroring the infinite
`while (!input.empty())` loop of `impl::accumulation_size`. -/
theorem accum_stall_div : ∀ fuel,
    accum fuel (Tok.maybe (char_token 'a' 1) 2) ⟨['b'], 0, 1⟩ = none := by
  intro fuel
  induction fuel using Nat.strong_induction_on with
  | _ fuel IH =>
    match fuel with
    | 0 => rfl
    | 1 => rfl
    | 2 => rfl
    | f+1+1+1 =>
      rw [accum_succ_eq, if_neg (by decide), maybe_stall_eval f]
      dsimp only
      rw [IH (f+1+1) (by omega)]

/-- A `sumSizes` failure pinpoints a failed component. -/
theorem sumSizes_none_mem : ∀ tks : List (Option SV), sumSizes tks = none → none ∈ tks := by
  intro tks
  induction tks with
  | nil => intro h; exact Option.noConfusion h
  | cons tk rest ih =>
    intro h
    match tk with
    | none => exact List.mem_cons_self _ _
    | some sp =>
      simp only [sumSizes] at h
      split at h
      · next hrec => exact List.mem_cons_of_mem _ (ih hrec)
      · exact Option.noConfusion h

/-- Lemma: `runList` produces one result entry per component: every component
of the sequence is attempted. -/
theorem runList_length (fuel : Nat) : ∀ ts sv tks sv2 evs,
    runList fuel ts sv = some (tks, sv2, evs) → tks.length = ts.length := by
  induction fuel with
  | zero =>
    intro ts sv tks sv2 evs h
    match ts, h with
    | [], h =>
      simp only [runList, Option.some.injEq, Prod.mk.injEq] at h
      rw [← h.1]
      rfl
    | _ :: _, h => exact Option.noConfusion h
  | succ fuel ih =>
    intro ts sv tks sv2 evs h
    match ts, h with
    | [], h =>
      simp only [runList, Option.some.injEq, Prod.mk.injEq] at h
      rw [← h.1]
      rfl
    | t :: rest, h =>
      rw [runList_cons_eq] at h
      split at h
      · exact Option.noConfusion h
      · next tk sv1 evs1 heq =>
        split at h
        · exact Option.noConfusion h
        · next tks1 sv2a evs2 hrec =>
          simp only [Option.some.injEq, Prod.mk.injEq] at h
          obtain ⟨h1, -⟩ := h
          subst h1
          simp only [List.length_cons]
          rw [ih rest sv1 tks1 sv2a evs2 hrec]

theorem toList_nil_of_len (s : SV) (h : s.len = 0) : s.toList = [] := by
  show (s.buf.drop s.off).take s.len = []
  rw [h]
  simp

/-- Every observer invocation recorded by a run carries an id attached
somewhere in the tokenizer: an id fresh for the tokenizer never
occurs. -/
theorem events_fresh (fuel : Nat) :
    (∀ t sv r, run fuel t sv = some r → ∀ o, obsFresh o t = true →
      ∀ e ∈ r.2.2, e.1 ≠ o)
    ∧ (∀ t sv sz evs, accum fuel t sv = some (sz, evs) → ∀ o, obsFresh o t = true →
      ∀ e ∈ evs, e.1 ≠ o)
    ∧ (∀ t n sv res sv2 evs, exactlyLoop fuel t n sv = some (res, sv2, evs) →
      ∀ o, obsFresh o t = true → ∀ e ∈ evs, e.1 ≠ o)
    ∧ (∀ ts sv tks sv2 evs, runList fuel ts sv = some (tks, sv2, evs) →
      ∀ o, obsFreshList o ts = true → ∀ e ∈ evs, e.1 ≠ o) := by
  induction fuel with
  | zero =>
    refine ⟨?_, ?_, ?_, ?_⟩
    · intro t sv r h
      exact Option.noConfusion h
    · intro t sv sz evs h o ho
      simp only [accum] at h
      split at h
      · simp only [Option.some.injEq, Prod.mk.injEq] at h
        rw [← h.2]
        intro e he
        exact absurd he (List.not_mem_nil e)
      · exact Option.noConfusion h
    · intro t n sv res sv2 evs h o ho
      match n, h with
      | 0, h =>
        rw [exactlyLoop_zero_eq] at h
        simp only [Option.some.injEq, Prod.mk.injEq] at h
        rw [← h.2.2]
        intro e he
        exact absurd he (List.not_mem_nil e)
      | _+1, h => exact Option.noConfusion h
    · intro ts sv tks sv2 evs h o ho
      match ts, h with
      | [], h =>
        rw [runList_nil_eq] at h
        simp only [Option.some.injEq, Prod.mk.injEq] at h
        rw [← h.2.2]
        intro e he
        exact absurd he (List.not_mem_nil e)
      | _ :: _, h => exact Option.noConfusion h
  | succ fuel ih =>
    obtain ⟨ih1, ih2, ih3, ih4⟩ := ih
    have hone : ∀ (i o : Nat) (sp : SV), (!(o == i)) = true →
        ∀ e ∈ [(i, sp)], (e : Event).1 ≠ o := by
      intro i o sp hio e he
      simp only [List.mem_singleton] at he
      subst he
      simp only [Bool.not_eq_eq_eq_not, Bool.not_true, beq_eq_false_iff_ne] at hio
      exact fun hc => hio hc.symm
    refine ⟨?_, ?_, ?_, ?_⟩
    · intro t sv r h o ho
      match t with
      | .singleChar p i =>
        have hio : (!(o == i)) = true := ho
        rw [run_singleChar_eq] at h
        split at h
        · injection h with h; subst h
          intro e he
          exact absurd he (List.not_mem_nil e)
        · split at h
          · injection h with h; subst h
            exact hone i o _ hio
          · injection h with h; subst h
            intro e he
            exact absurd he (List.not_mem_nil e)
      | .strTok str i =>
        have hio : (!(o == i)) = true := ho
        rw [run_strTok_eq] at h
        split at h
        · injection h with h; subst h
          exact hone i o _ hio
        · injection h with h; subst h
          intro e he
          exact absurd he (List.not_mem_nil e)
      | .anyOf g i =>
        have hio : (!(o == i)) = true := ho
        rw [run_anyOf_eq] at h
        split at h
        · injection h with h; subst h
          exact hone i o _ hio
        · injection h with h; subst h
          intro e he
          exact absurd he (List.not_mem_nil e)
      | .noneOf g i =>
        have hio : (!(o == i)) = true := ho
        rw [run_noneOf_eq] at h
        split at h
        · injection h with h; subst h
          intro e he
          exact absurd he (List.not_mem_nil e)
        · injection h with h; subst h
          exact hone i o _ hio
      | .many t i =>
        have hio : (!(o == i)) = true := by
          simp only [obsFresh, Bool.and_eq_true] at ho
          exact ho.1
        have hot : obsFresh o t = true := by
          simp only [obsFresh, Bool.and_eq_true] at ho
          exact ho.2
        rw [run_many_eq] at h
        split at h
        · exact Option.noConfusion h
        · next sz evs heq =>
          injection h with h; subst h
          intro e he
          simp only [List.mem_append] at he
          rcases he with he | he
          · exact ih2 t sv sz evs heq o hot e he
          · exact hone i o _ hio e he
      | .atLeastOne t i =>
        have hio : (!(o == i)) = true := by
          simp only [obsFresh, Bool.and_eq_true] at ho
          exact ho.1
        have hot : obsFresh o t = true := by
          simp only [obsFresh, Bool.and_eq_true] at ho
          exact ho.2
        rw [run_atLeastOne_eq] at h
        split at h
        · exact Option.noConfusion h
        · next sv1 evs heq =>
          injection h with h; subst h
          exact fun e he => ih1 t sv _ heq o hot e he
        · next sp1 sv1 evs1 heq =>
          split at h
          · exact Option.noConfusion h
          · next tsz evs2 hacc =>
            injection h with h; subst h
            intro e he
            simp only [List.mem_append] at he
            rcases he with (he | he) | he
            · exact ih1 t sv _ heq o hot e he
            · exact ih2 t sv1 tsz evs2 hacc o hot e he
            · exact hone i o _ hio e he
      | .exactly t n i =>
        have hio : (!(o == i)) = true := by
          simp only [obsFresh, Bool.and_eq_true] at ho
          exact ho.1
        have hot : obsFresh o t = true := by
          simp only [obsFresh, Bool.and_eq_true] at ho
          exact ho.2
        rw [run_exactly_eq] at h
        split at h
        · exact Option.noConfusion h
        · next sv1 evs heq =>
          injection h with h; subst h
          exact fun e he => ih3 t n sv _ _ _ heq o hot e he
        · next tsz sv1 evs heq =>
          injection h with h; subst h
          intro e he
          simp only [List.mem_append] at he
          rcases he with he | he
          · exact ih3 t n sv _ _ _ heq o hot e he
          · exact hone i o _ hio e he
      | .maybe t i =>
        have hio : (!(o == i)) = true := by
          simp only [obsFresh, Bool.and_eq_true] at ho
          exact ho.1
        have hot : obsFresh o t = true := by
          simp only [obsFresh, Bool.and_eq_true] at ho
          exact ho.2
        rw [run_maybe_eq] at h
        split at h
        · exact Option.noConfusion h
        · next sv1 evs heq =>
          injection h with h; subst h
          intro e he
          simp only [List.mem_append] at he
          rcases he with he | he
          · exact ih1 t sv _ heq o hot e he
          · exact hone i o _ hio e he
        · next sp1 sv1 evs heq =>
          injection h with h; subst h
          intro e he
          simp only [List.mem_append] at he
          rcases he with he | he
          · exact ih1 t sv _ heq o hot e he
          · exact hone i o _ hio e he
      | .seq ts =>
        have hts : obsFreshList o ts = true := ho
        rw [run_seq_eq] at h
        split at h
        · exact Option.noConfusion h
        · next tks sv1 evs heq =>
          split at h
          · injection h with h; subst h
            exact fun e he => ih4 ts sv tks sv1 evs heq o hts e he
          · injection h with h; subst h
            exact fun e he => ih4 ts sv tks sv1 evs heq o hts e he
      | .alt l r =>
        have hol : obsFresh o l = true := by
          simp only [obsFresh, Bool.and_eq_true] at ho
          exact ho.1
        have hor : obsFresh o r = true := by
          simp only [obsFresh, Bool.and_eq_true] at ho
          exact ho.2
        rw [run_alt_eq] at h
        split at h
        · exact Option.noConfusion h
        · next sp1 sv1 evs1 heq =>
          injection h with h; subst h
          exact fun e he => ih1 l sv _ heq o hol e he
        · next sv1 evs1 heq =>
          split at h
          · exact Option.noConfusion h
          · next tk2 sv2 evs2 heq2 =>
            injection h with h; subst h
            intro e he
            simp only [List.mem_append] at he
            rcases he with he | he
            · exact ih1 l sv _ heq o hol e he
            · exact ih1 r sv1 _ heq2 o hor e he
      | .mapSeq t i =>
        have hio : (!(o == i)) = true := by
          simp only [obsFresh, Bool.and_eq_true] at ho
          exact ho.1
        have hot : obsFresh o t = true := by
          simp only [obsFresh, Bool.and_eq_true] at ho
          exact ho.2
        rw [run_mapSeq_eq] at h
        split at h
        · exact Option.noConfusion h
        · next sv1 evs heq =>
          injection h with h; subst h
          exact fun e he => ih1 t sv _ heq o hot e he
        · next sp1 sv1 evs heq =>
          injection h with h; subst h
          intro e he
          simp only [List.mem_append] at he
          rcases he with he | he
          · exact ih1 t sv _ heq o hot e he
          · exact hone i o _ hio e he
    · intro t sv sz evs h o hot
      rw [accum_succ_eq] at h
      split at h
      · simp only [Option.some.injEq, Prod.mk.injEq] at h
        rw [← h.2]
        intro e he
        exact absurd he (List.not_mem_nil e)
      · split at h
        · exact Option.noConfusion h
        · next sv1 evs0 heq =>
          simp only [Option.some.injEq, Prod.mk.injEq] at h
          rw [← h.2]
          exact fun e he => ih1 t sv _ heq o hot e he
        · next sp sv1 evs0 heq =>
          split at h
          · exact Option.noConfusion h
          · next sz1 evs2 hacc =>
            simp only [Option.some.injEq, Prod.mk.injEq] at h
            rw [← h.2]
            intro e he
            simp only [List.mem_append] at he
            rcases he with he | he
            · exact ih1 t sv _ heq o hot e he
            · exact ih2 t sv1 sz1 evs2 hacc o hot e he
    · intro t n sv res sv2 evs h o hot
      match n, h with
      | 0, h =>
        rw [exactlyLoop_zero_eq] at h
        simp only [Option.some.injEq, Prod.mk.injEq] at h
        rw [← h.2.2]
        intro e he
        exact absurd he (List.not_mem_nil e)
      | n+1, h =>
        rw [exactlyLoop_succ_eq] at h
        split at h
        · exact Option.noConfusion h
        · next sv1 evs0 heq =>
          simp only [Option.some.injEq, Prod.mk.injEq] at h
          rw [← h.2.2]
          exact fun e he => ih1 t sv _ heq o hot e he
        · next sp sv1 evs0 heq =>
          split at h
          · exact Option.noConfusion h
          · next res1 sv2a evs2 hrec =>
            simp only [Option.some.injEq, Prod.mk.injEq] at h
            rw [← h.2.2]
            intro e he
            simp only [List.mem_append] at he
            rcases he with he | he
            · exact ih1 t sv _ heq o hot e he
            · exact ih3 t n sv1 _ _ _ hrec o hot e he
    · intro ts sv tks sv2 evs h o hts
      match ts, h with
      | [], h =>
        rw [runList_nil_eq] at h
        simp only [Option.some.injEq, Prod.mk.injEq] at h
        rw [← h.2.2]
        intro e he
        exact absurd he (List.not_mem_nil e)
      | t :: rest, h =>
        have hot : obsFresh o t = true := by
          simp only [obsFreshList, Bool.and_eq_true] at hts
          exact hts.1
        have hrest : obsFreshList o rest = true := by
          simp only [obsFreshList, Bool.and_eq_true] at hts
          exact hts.2
        rw [runList_cons_eq] at h
        split at h
        · exact Option.noConfusion h
        · next tk sv1 evs1 heq =>
          split at h
          · exact Option.noConfusion h
          · next tks1 sv2a evs2 hrec =>
            simp only [Option.some.injEq, Prod.mk.injEq] at h
            rw [← h.2.2]
            intro e he
            simp only [List.mem_append] at he
            rcases he with he | he
            · exact ih1 t sv _ heq o hot e he
            · exact ih4 rest sv1 tks1 sv2a evs2 hrec o hrest e he

theorem filter_none_of_fresh (o : Nat) (evs : List Event)
    (h : ∀ e ∈ evs, e.1 ≠ o) : evs.filter (fun e => e.1 == o) = [] := by
  rw [List.filter_eq_nil_iff]
  intro e he
  simp [h e he]

theorem filter_obs_append (o : Nat) (evs : List Event) (sp : SV)
    (h : ∀ e ∈ evs, e.1 ≠ o) :
    (evs ++ [(o, sp)]).filter (fun e => e.1 == o) = [(o, sp)] := by
  rw [List.filter_append, filter_none_of_fresh o evs h]
  simp

/-- Counting the observer invocations of `single_char_tokenizer`
inside the loop of `exactly`: when the loop fails, the inner observer
has fired exactly once per leading predicate-satisfying unit, and
fewer than `n` units satisfied the predicate at the front. -/
theorem exactlyLoop_singleChar_count (p : Char → Bool) (i : Nat) :
    ∀ (n fuel : Nat) (sv sv1 : SV) (evs : List Event), sv.Good →
      exactlyLoop fuel (Tok.singleChar p i) n sv = some (none, sv1, evs) →
      (evs.filter (fun e => e.1 == i)).length = (sv.toList.takeWhile p).length
      ∧ (sv.toList.takeWhile p).length < n := by
  intro n
  induction n with
  | zero =>
    intro fuel sv sv1 evs hg h
    rw [exactlyLoop_zero_eq] at h
    simp only [Option.some.injEq, Prod.mk.injEq] at h
    exact Option.noConfusion h.1
  | succ n IH =>
    intro fuel sv sv1 evs hg h
    match fuel, h with
    | fuel+1, h =>
      rw [exactlyLoop_succ_eq] at h
      match fuel, h with
      | 0, h => exact Option.noConfusion h
      | fuel+1, h =>
        rw [run_singleChar_eq] at h
        by_cases h0 : sv.len = 0
        · rw [if_pos h0] at h
          have hnil : sv.toList = [] := toList_nil_of_len sv h0
          dsimp only at h
          simp only [Option.some.injEq, Prod.mk.injEq] at h
          rw [← h.2.2, hnil]
          simp
        · rw [if_neg h0] at h
          by_cases hp : p (sv.charAt 0)
          · rw [if_pos hp] at h
            dsimp only at h
            split at h
            · exact Option.noConfusion h
            · next res1 sv2 evs2 hrec =>
              simp only [Option.some.injEq, Prod.mk.injEq] at h
              obtain ⟨h1, h2, h3⟩ := h
              have hres : res1 = none := by
                match res1, h1 with
                | none, h1 => rfl
              rw [hres] at hrec
              have hg1 : (sv.drop 1).Good := SV.good_drop sv 1 hg
              obtain ⟨hc1, hc2⟩ := IH (fuel+1) (sv.drop 1) sv2 evs2 hg1 hrec
              rw [← h3]
              have hcons : sv.toList = sv.charAt 0 :: (sv.drop 1).toList :=
                SV.toList_cons sv hg h0
              rw [hcons]
              rw [List.takeWhile_cons_of_pos hp]
              constructor
              · simp only [List.filter_append, List.filter_cons, List.filter_nil]
                simp only [beq_self_eq_true, if_pos]
                simp only [List.length_append, List.length_cons, List.length_nil,
                  List.length_cons]
                omega
              · simp only [List.length_cons]
                omega
          · rw [if_neg hp] at h
            dsimp only at h
            simp only [Option.some.injEq, Prod.mk.injEq] at h
            rw [← h.2.2]
            have hcons : sv.toList = sv.charAt 0 :: (sv.drop 1).toList :=
              SV.toList_cons sv hg h0
            rw [hcons, List.takeWhile_cons_of_neg (by simp [hp])]
            simp

/-- Claim C1: for every tokenizer built from the library's atomic
matchers (single-character predicate, char_token, str_token, any_of,
none_of) and combinators (sequence, alternation, many, at_least_one,
exactly, maybe, map_seq) and for every input cursor, a NoMatch result
leaves the cursor exactly where it was before the call. -/
theorem c1_no_consumption_on_failure (fuel : Nat) (t : Tok) (sv sv1 : SV)
    (evs : List Event) (h : run fuel t sv = some (none, sv1, evs)) : sv1 = sv :=
  run_fail_cursor fuel t sv sv1 evs h

/-- Witness for C1 at a concrete failing match. -/
theorem c1_witness :
    run 5 (char_token 'a' 0) ⟨['b'], 0, 1⟩ = some (none, ⟨['b'], 0, 1⟩, [])
    ∧ (⟨['b'], 0, 1⟩ : SV) = ⟨['b'], 0, 1⟩ :=
  ⟨by decide,
   c1_no_consumption_on_failure 5 (char_token 'a' 0) ⟨['b'], 0, 1⟩ ⟨['b'], 0, 1⟩ []
     (by decide)⟩

/-- Claim C2 counterexample: `none_of` applied to the empty cursor
succeeds with a zero-length span, yet the cursor is not left equal to
its pre-call value: its start offset advances by one (past the end of
the buffer), so the cursor does not advance by exactly `S.length = 0`
units. -/
theorem c2_counterexample :
    run 2 (Tok.noneOf ['x'] 0) ⟨[], 0, 0⟩ =
      some (some ⟨[], 0, 0⟩, ⟨[], 1, 0⟩, [(0, ⟨[], 0, 0⟩)])
    ∧ (⟨[], 1, 0⟩ : SV) ≠ ⟨[], 0, 0⟩ := by decide

/-- Claim C2 (amended): for every tokenizer and every good cursor, a
success with span S removes exactly `S.length` units from the
remaining input: the remaining length decreases by `S.length`, S's
content is the length-`S.length` prefix of the pre-call remaining
input, and the final cursor holds exactly the rest.  (The start offset
itself can over-advance only in the `none_of`-on-empty-input case of
the counterexample.) -/
theorem c2_exact_consumption_on_success (fuel : Nat) (t : Tok) (sv sp sv1 : SV)
    (evs : List Event) (hg : sv.Good)
    (h : run fuel t sv = some (some sp, sv1, evs)) :
    sp.len + sv1.len = sv.len
    ∧ sp.toList = sv.toList.take sp.len
    ∧ sv1.toList = sv.toList.drop sp.len := by
  have hRun := (sound fuel).1 t sv _ h
  have h1 : sp.len + sv1.len = sv.len := hRun.2.1 sp rfl
  have hctr := hRun.2.2 sp rfl hg
  have h2 : sp.toList = sv.toList.take sp.len := hctr.1
  have h3 : sv1.toList = sv.toList.drop sp.len := hctr.2.1
  exact ⟨h1, h2, h3⟩

/-- Witness for C2 at a concrete successful match. -/
theorem c2_witness :
    ((⟨['a','b'], 0, 2⟩ : SV).Good
     ∧ run 3 (char_token 'a' 7) ⟨['a','b'], 0, 2⟩ =
        some (some ⟨['a','b'], 0, 1⟩, ⟨['a','b'], 1, 1⟩, [(7, ⟨['a','b'], 0, 1⟩)]))
    ∧ ((⟨['a','b'], 0, 1⟩ : SV).len + (⟨['a','b'], 1, 1⟩ : SV).len
        = (⟨['a','b'], 0, 2⟩ : SV).len
       ∧ (⟨['a','b'], 0, 1⟩ : SV).toList
          = (⟨['a','b'], 0, 2⟩ : SV).toList.take (⟨['a','b'], 0, 1⟩ : SV).len
       ∧ (⟨['a','b'], 1, 1⟩ : SV).toList
          = (⟨['a','b'], 0, 2⟩ : SV).toList.drop (⟨['a','b'], 0, 1⟩ : SV).len) :=
  ⟨⟨by decide, by decide⟩,
   c2_exact_consumption_on_success 3 (char_token 'a' 7) ⟨['a','b'], 0, 2⟩
     ⟨['a','b'], 0, 1⟩ ⟨['a','b'], 1, 1⟩ [(7, ⟨['a','b'], 0, 1⟩)]
     (by decide) (by decide)⟩

/-- Claim C3 counterexample: the tokenizer
`many(maybe(char_token 'a'))` applied to the nonempty input "b" never
terminates: the accumulation loop keeps re-running the inner `maybe`,
which always succeeds with an empty span without consuming, so no
amount of fuel makes the interpreter return — exactly the infinite
`while (!input.empty())` loop of `impl::accumulation_size`. -/
theorem c3_counterexample :
    ¬ Terminates (Tok.many (Tok.maybe (char_token 'a' 1) 2) 3) ⟨['b'], 0, 1⟩ := by
  rintro ⟨fuel, r, h⟩
  match fuel, h with
  | 0, h => exact Option.noConfusion h
  | fuel+1, h =>
    rw [run_many_eq, accum_stall_div fuel] at h
    exact Option.noConfusion h

/-- Claim C3 (amended): a match attempt terminates on every finite
input for every tokenizer whose `many`/`at_least_one` bodies are built
to consume at least one unit whenever they succeed on nonempty input
(the syntactic check `repOk`); the repetition loops only re-run while
the input is nonempty, so they need every successful inner step to
consume at least one unit. -/
theorem c3_termination_for_consuming_bodies (t : Tok) (h : repOk t = true)
    (sv : SV) : Terminates t sv :=
  term_run t h sv

/-- Witness for C3 at a concrete repetition tokenizer and input. -/
theorem c3_witness :
    repOk (Tok.many (char_token 'a' 1) 2) = true
    ∧ Terminates (Tok.many (char_token 'a' 1) 2) ⟨['a','a','b'], 0, 3⟩ :=
  ⟨by decide,
   c3_termination_for_consuming_bodies (Tok.many (char_token 'a' 1) 2) (by decide)
     ⟨['a','a','b'], 0, 3⟩⟩

/-- Claim C4 counterexample: in `sequence(char 'a', char 'b')` applied
to "b" the first component fails, yet the second component is still
attempted and its observer (id 2) fires — the event list of the failed
sequence application is not empty, contradicting "the components after
Tk are not attempted (in particular no later component's observer
fires)". -/
theorem c4_counterexample :
    run 5 (Tok.seq [char_token 'a' 1, char_token 'b' 2]) ⟨['b'], 0, 1⟩ =
      some (none, ⟨['b'], 0, 1⟩, [(2, ⟨['b'], 0, 1⟩)])
    ∧ [((2 : Nat), (⟨['b'], 0, 1⟩ : SV))] ≠ ([] : List Event) := by decide

/-- Claim C4 (amended): if some component of
`sequence(T1, ..., Tn)` fails, the cursor is rolled back to its
position before T1 ran and the overall result is NoMatch; however all
n components are attempted (the braced-array initialization of
`impl::apply_tokenizers` invokes every tokenizer before the failure
check), each from the cursor state its predecessor left, so observers
of components after the failing one may fire; only the cursor is
restored. -/
theorem c4_seq_failure_rollback (fuel : Nat) (ts : List Tok) (sv sv1 : SV)
    (evs : List Event)
    (h : run (fuel+1) (Tok.seq ts) sv = some (none, sv1, evs)) :
    sv1 = sv
    ∧ ∃ tks svf, runList fuel ts sv = some (tks, svf, evs)
        ∧ tks.length = ts.length ∧ none ∈ tks := by
  rw [run_seq_eq] at h
  split at h
  · exact Option.noConfusion h
  · next tks svA evsA heq =>
    split at h
    · next hsum =>
      simp only [Option.some.injEq, Prod.mk.injEq] at h
      obtain ⟨-, h2, h3⟩ := h
      subst h2
      subst h3
      exact ⟨rfl, tks, svA, heq, runList_length fuel ts sv tks svA evsA heq,
        sumSizes_none_mem tks hsum⟩
    · next tsz hsum =>
      simp only [Option.some.injEq, Prod.mk.injEq] at h
      exact Option.noConfusion h.1

/-- Witness for C4 at a concrete failing sequence. -/
theorem c4_witness :
    run 5 (Tok.seq [char_token 'a' 1, char_token 'b' 2]) ⟨['b'], 0, 1⟩ =
      some (none, ⟨['b'], 0, 1⟩, [(2, ⟨['b'], 0, 1⟩)])
    ∧ ((⟨['b'], 0, 1⟩ : SV) = ⟨['b'], 0, 1⟩
       ∧ ∃ tks svf, runList 4 [char_token 'a' 1, char_token 'b' 2] ⟨['b'], 0, 1⟩ =
           some (tks, svf, [(2, ⟨['b'], 0, 1⟩)])
         ∧ tks.length = [char_token 'a' 1, char_token 'b' 2].length ∧ none ∈ tks) :=
  ⟨by decide,
   c4_seq_failure_rollback 4 [char_token 'a' 1, char_token 'b' 2] ⟨['b'], 0, 1⟩
     ⟨['b'], 0, 1⟩ [(2, ⟨['b'], 0, 1⟩)] (by decide)⟩

/-- Claim C5: for alternation (operator|), if T1 succeeds its result
is returned unchanged and T2 is not attempted (the emitted events are
exactly T1's, and when both branches would match the result equals
T1's); if T1 fails, T2 is attempted from the same starting position
(T1 restored the cursor); if both fail the overall result is an
explicit NoMatch with no net cursor movement. -/
theorem c5_alternation_ordered_choice (fuel : Nat) (l r : Tok) (sv svl svr : SV)
    (tkl tkr : Option SV) (evsl evsr : List Event)
    (hl : run fuel l sv = some (tkl, svl, evsl))
    (hr : run fuel r sv = some (tkr, svr, evsr)) :
    run (fuel+1) (Tok.alt l r) sv =
      some (tkl.elim (tkr, svr, evsl ++ evsr) (fun sp => (some sp, svl, evsl)))
    ∧ (tkl = none → svl = sv)
    ∧ (tkl = none → tkr = none → svr = sv) := by
  refine ⟨?_, ?_, ?_⟩
  · rw [run_alt_eq, hl]
    cases tkl with
    | some sp => rfl
    | none =>
      have hsvl : svl = sv := run_fail_cursor fuel l sv svl evsl hl
      subst hsvl
      show (match run fuel r svl with
        | none => none
        | some (tk2, sv2, evs2) => some (tk2, sv2, evsl ++ evs2)) =
        some (tkr, svr, evsl ++ evsr)
      rw [hr]
  · intro hn
    rw [hn] at hl
    exact run_fail_cursor fuel l sv svl evsl hl
  · intro hnl hnr
    rw [hnr] at hr
    exact run_fail_cursor fuel r sv svr evsr hr

/-- Witness for C5: both branches would match "a"; the alternation
returns the left result (left bias). -/
theorem c5_witness :
    run 4 (Tok.alt (char_token 'a' 1) (char_token 'a' 2)) ⟨['a'], 0, 1⟩ =
      some (some ⟨['a'], 0, 1⟩, ⟨['a'], 1, 0⟩, [(1, ⟨['a'], 0, 1⟩)]) :=
  (c5_alternation_ordered_choice 3 (char_token 'a' 1) (char_token 'a' 2)
    ⟨['a'], 0, 1⟩ ⟨['a'], 1, 0⟩ ⟨['a'], 1, 0⟩ (some ⟨['a'], 0, 1⟩)
    (some ⟨['a'], 0, 1⟩) [(1, ⟨['a'], 0, 1⟩)] [(2, ⟨['a'], 0, 1⟩)]
    (by decide) (by decide)).1

/-- Claim C6 (code behavior at the failing input): `none_of("x")`
applied to the empty cursor returns Matched with an empty span, fires
the observer, and advances the cursor's start offset by one past the
end of the buffer — instead of the NoMatch-with-unchanged-cursor the
specification requires for empty input. -/
theorem c6_none_of_empty_behavior :
    run 2 (Tok.noneOf ['x'] 7) ⟨[], 0, 0⟩ =
      some (some ⟨[], 0, 0⟩, ⟨[], 1, 0⟩, [(7, ⟨[], 0, 0⟩)]) := by decide

/-- Claim C7: whenever `many(T)` or `maybe(T)` returns, the result is
Matched; neither combinator can return NoMatch, on any input
including the empty one. -/
theorem c7_repetition_totality (fuel : Nat) (t : Tok) (o : Nat) (sv : SV)
    (r1 r2 : RunRes)
    (h1 : run fuel (Tok.many t o) sv = some r1)
    (h2 : run fuel (Tok.maybe t o) sv = some r2) :
    r1.1.isSome ∧ r2.1.isSome := by
  constructor
  · match fuel, h1 with
    | fuel+1, h1 =>
      rw [run_many_eq] at h1
      split at h1
      · exact Option.noConfusion h1
      · next sz evs heq =>
        injection h1 with h1
        subst h1
        rfl
  · match fuel, h2 with
    | fuel+1, h2 =>
      rw [run_maybe_eq] at h2
      split at h2
      · exact Option.noConfusion h2
      · next sv1 evs heq =>
        injection h2 with h2
        subst h2
        rfl
      · next sp1 sv1 evs heq =>
        injection h2 with h2
        subst h2
        rfl

/-- Witness for C7 on an input the inner tokenizer rejects. -/
theorem c7_witness :
    run 3 (Tok.many (char_token 'a' 1) 2) ⟨['b'], 0, 1⟩ =
      some (some ⟨['b'], 0, 0⟩, ⟨['b'], 0, 1⟩, [(2, ⟨['b'], 0, 0⟩)])
    ∧ run 3 (Tok.maybe (char_token 'a' 1) 2) ⟨['b'], 0, 1⟩ =
      some (some (SV.ofList []), ⟨['b'], 0, 1⟩, [(2, SV.ofList [])])
    ∧ ((some (⟨['b'], 0, 0⟩ : SV) : Option SV).isSome
       ∧ (some (SV.ofList []) : Option SV).isSome) :=
  ⟨by decide, by decide,
   c7_repetition_totality 3 (char_token 'a' 1) 2 ⟨['b'], 0, 1⟩
     (some ⟨['b'], 0, 0⟩, ⟨['b'], 0, 1⟩, [(2, ⟨['b'], 0, 0⟩)])
     (some (SV.ofList []), ⟨['b'], 0, 1⟩, [(2, SV.ofList [])])
     (by decide) (by decide)⟩

/-- Claim C8: for every tokenizer T and cursor, `exactly(T, 0)`
succeeds with a zero-length span, leaves the cursor unmoved, and does
not invoke T: the result and the single observer event are the same
for every T, with no event of T's observers. -/
theorem c8_exactly_zero (fuel : Nat) (t : Tok) (o : Nat) (sv : SV) :
    run (fuel+1) (Tok.exactly t 0 o) sv =
      some (some (sv.take 0), sv, [(o, sv.take 0)])
    ∧ (sv.take 0).len = 0 := by
  constructor
  · rw [run_exactly_eq, exactlyLoop_zero_eq]
    rfl
  · rw [SV.len_take]
    omega

/-- Claim C9 counterexample: `at_least_one(char 'a', f)` applied where
the first inner match fails invokes the observer `f` zero times, not
"exactly once per application": the application returns NoMatch with
an empty event list. -/
theorem c9_counterexample :
    run 5 (Tok.atLeastOne (char_token 'a' 1) 9) ⟨['b'], 0, 1⟩ =
      some (none, ⟨['b'], 0, 1⟩, [])
    ∧ countObs 9 ([] : List Event) ≠ 1 := by decide

/-- Claim C9 (amended): for an observer id `o` not used inside the
inner tokenizer, `many(T, f)` invokes `f` exactly once per application
on the single full accumulated span, and `at_least_one(T, f)` does so
exactly once per successful application (and not at all when it
fails); never once per repetition. -/
theorem c9_observer_fires_once_on_aggregate (t : Tok) (o : Nat)
    (ho : obsFresh o t = true) (fuel1 fuel2 fuel3 : Nat)
    (sv1 sv2 sv3 svA svB svC sp1 sp2 : SV)
    (evs1 evs2 evs3 : List Event)
    (h1 : run fuel1 (Tok.many t o) sv1 = some (some sp1, svA, evs1))
    (h2 : run fuel2 (Tok.atLeastOne t o) sv2 = some (some sp2, svB, evs2))
    (h3 : run fuel3 (Tok.atLeastOne t o) sv3 = some (none, svC, evs3)) :
    evs1.filter (fun e => e.1 == o) = [(o, sp1)]
    ∧ evs2.filter (fun e => e.1 == o) = [(o, sp2)]
    ∧ evs3.filter (fun e => e.1 == o) = [] := by
  refine ⟨?_, ?_, ?_⟩
  · match fuel1, h1 with
    | fuel+1, h1 =>
      rw [run_many_eq] at h1
      split at h1
      · exact Option.noConfusion h1
      · next sz evs heq =>
        simp only [Option.some.injEq, Prod.mk.injEq] at h1
        obtain ⟨hsp, -, hevs⟩ := h1
        rw [← hevs, hsp]
        exact filter_obs_append o evs sp1
          (fun e he => (events_fresh fuel).2.1 t sv1 sz evs heq o ho e he)
  · match fuel2, h2 with
    | fuel+1, h2 =>
      rw [run_atLeastOne_eq] at h2
      split at h2
      · exact Option.noConfusion h2
      · next svX evsX heq =>
        simp only [Option.some.injEq, Prod.mk.injEq] at h2
        exact Option.noConfusion h2.1
      · next spA svX evsA heq =>
        split at h2
        · exact Option.noConfusion h2
        · next tsz evsB hacc =>
          simp only [Option.some.injEq, Prod.mk.injEq] at h2
          obtain ⟨hsp, -, hevs⟩ := h2
          rw [← hevs, hsp]
          have hfA : ∀ e ∈ evsA, (e : Event).1 ≠ o :=
            fun e he => (events_fresh fuel).1 t sv2 _ heq o ho e he
          have hfB : ∀ e ∈ evsB, (e : Event).1 ≠ o :=
            fun e he => (events_fresh fuel).2.1 t svX tsz evsB hacc o ho e he
          refine filter_obs_append o (evsA ++ evsB) sp2 ?_
          intro e he
          rcases List.mem_append.mp he with he | he
          · exact hfA e he
          · exact hfB e he
  · match fuel3, h3 with
    | fuel+1, h3 =>
      rw [run_atLeastOne_eq] at h3
      split at h3
      · exact Option.noConfusion h3
      · next svX evsX heq =>
        simp only [Option.some.injEq, Prod.mk.injEq] at h3
        obtain ⟨-, -, hevs⟩ := h3
        rw [← hevs]
        exact filter_none_of_fresh o evsX
          (fun e he => (events_fresh fuel).1 t sv3 _ heq o ho e he)
      · next spA svX evsA heq =>
        split at h3
        · exact Option.noConfusion h3
        · next tsz evsB hacc =>
          simp only [Option.some.injEq, Prod.mk.injEq] at h3
          exact Option.noConfusion h3.1

/-- Witness for C9: two repetitions of the inner tokenizer fire the
inner observer twice, yet the repetition observer (id 9) fires once on
the aggregate span, and a failing at_least_one fires it zero times. -/
theorem c9_witness :
    obsFresh 9 (char_token 'a' 1) = true
    ∧ ([((1:Nat), (⟨['a','a','b'], 0, 1⟩ : SV)), (1, ⟨['a','a','b'], 1, 1⟩),
        (9, ⟨['a','a','b'], 0, 2⟩)].filter (fun e => e.1 == 9)
          = [((9:Nat), (⟨['a','a','b'], 0, 2⟩ : SV))]
       ∧ [((1:Nat), (⟨['a','a','b'], 0, 1⟩ : SV)), (1, ⟨['a','a','b'], 1, 1⟩),
          (9, ⟨['a','a','b'], 0, 2⟩)].filter (fun e => e.1 == 9)
          = [((9:Nat), (⟨['a','a','b'], 0, 2⟩ : SV))]
       ∧ ([] : List Event).filter (fun e => e.1 == 9) = []) :=
  ⟨by decide,
   c9_observer_fires_once_on_aggregate (char_token 'a' 1) 9 (by decide) 6 6 3
     ⟨['a','a','b'], 0, 3⟩ ⟨['a','a','b'], 0, 3⟩ ⟨['b'], 0, 1⟩
     ⟨['a','a','b'], 2, 1⟩ ⟨['a','a','b'], 2, 1⟩ ⟨['b'], 0, 1⟩
     ⟨['a','a','b'], 0, 2⟩ ⟨['a','a','b'], 0, 2⟩
     [(1, ⟨['a','a','b'], 0, 1⟩), (1, ⟨['a','a','b'], 1, 1⟩), (9, ⟨['a','a','b'], 0, 2⟩)]
     [(1, ⟨['a','a','b'], 0, 1⟩), (1, ⟨['a','a','b'], 1, 1⟩), (9, ⟨['a','a','b'], 0, 2⟩)]
     []
     (by decide) (by decide) (by decide)⟩

/-- Claim C10: when `exactly(T, n)` with a single-character-predicate
inner tokenizer fails at the (k+1)-th application, the inner observer
has already fired once for each of the k earlier successes (k is the
number of leading predicate-satisfying units, and k < n), and those
invocations persist in the event list while only the cursor is
restored. -/
theorem c10_inner_observer_persists (fuel : Nat) (p : Char → Bool) (i n o : Nat)
    (sv sv1 : SV) (evs : List Event) (hg : sv.Good)
    (h : run fuel (Tok.exactly (Tok.singleChar p i) n o) sv = some (none, sv1, evs)) :
    sv1 = sv
    ∧ (evs.filter (fun e => e.1 == i)).length = (sv.toList.takeWhile p).length
    ∧ (sv.toList.takeWhile p).length < n := by
  match fuel, h with
  | fuel+1, h =>
    rw [run_exactly_eq] at h
    split at h
    · exact Option.noConfusion h
    · next svA evsA heq =>
      simp only [Option.some.injEq, Prod.mk.injEq] at h
      obtain ⟨-, h2, h3⟩ := h
      subst h2
      subst h3
      obtain ⟨hc1, hc2⟩ :=
        exactlyLoop_singleChar_count p i n fuel sv svA evsA hg heq
      exact ⟨rfl, hc1, hc2⟩
    · next tsz svA evsA heq =>
      simp only [Option.some.injEq, Prod.mk.injEq] at h
      exact Option.noConfusion h.1

/-- Witness for C10: `exactly(singleChar 'a', 3)` on "aab" fails at
the third application after two successes; the inner observer (id 1)
fired twice and the events persist while the cursor is restored. -/
theorem c10_witness :
    (⟨['a','a','b'], 0, 3⟩ : SV).Good
    ∧ run 9 (Tok.exactly (Tok.singleChar (fun c => c == 'a') 1) 3 2)
        ⟨['a','a','b'], 0, 3⟩ =
      some (none, ⟨['a','a','b'], 0, 3⟩,
        [(1, ⟨['a','a','b'], 0, 1⟩), (1, ⟨['a','a','b'], 1, 1⟩)])
    ∧ ((⟨['a','a','b'], 0, 3⟩ : SV) = ⟨['a','a','b'], 0, 3⟩
       ∧ ([((1:Nat), (⟨['a','a','b'], 0, 1⟩ : SV)), (1, ⟨['a','a','b'], 1, 1⟩)].filter
            (fun e => e.1 == 1)).length =
          ((⟨['a','a','b'], 0, 3⟩ : SV).toList.takeWhile (fun c => c == 'a')).length
       ∧ ((⟨['a','a','b'], 0, 3⟩ : SV).toList.takeWhile (fun c => c == 'a')).length < 3) :=
  ⟨by decide, by decide,
   c10_inner_observer_persists 9 (fun c => c == 'a') 1 3 2 ⟨['a','a','b'], 0, 3⟩
     ⟨['a','a','b'], 0, 3⟩ [(1, ⟨['a','a','b'], 0, 1⟩), (1, ⟨['a','a','b'], 1, 1⟩)]
     (by decide) (by decide)⟩
